import Mathlib

/-!
Verification of the hybrid layout chunker
(`soliqai/backend/app/services/hybrid_chunker.py`).

The pipeline is embedded shallowly: text is `List Char`, Python regular
expressions are translated into explicit character-level scanners, machine
arithmetic (`int(len(text) / 3.6)`) is modelled exactly as Nat arithmetic
(`len * 5 / 18`, the two agree for all realistic lengths since `3.6 = 18/5`
and double rounding error never crosses an integer boundary at denominator
18), and the mutable packer state is threaded explicitly.

Case folding: Python's `str.lower`/`str.upper`/`str.isalpha` are modelled on
the character repertoire the chunker targets (ASCII plus the Russian and
Tajik Cyrillic letters appearing in its patterns).
-/

namespace Aigov

/-- Model of the whitespace class (regex backslash-s, `str.strip`):
space, tab, newline, carriage return, vertical tab, form feed. -/
def isWs (c : Char) : Bool :=
  c = ' ' || c = '\t' || c = '\n' || c = '\r' || c = '\x0b' || c = '\x0c'

/-- Text is modelled as a list of characters. -/
abbrev Str := List Char

/-- Python `str.strip`: drop whitespace from both ends. -/
def strip (s : Str) : Str :=
  ((s.dropWhile isWs).reverse.dropWhile isWs).reverse

/-- Python `str.upper` on ASCII and the Cyrillic letters used by the
chunker's patterns (Russian а-я, ё and Tajik ӯ қ ҳ ҷ ғ). -/
def pyUpper (c : Char) : Char :=
  let n := c.toNat
  if 97 ≤ n ∧ n ≤ 122 then Char.ofNat (n - 32)
  else if 1072 ≤ n ∧ n ≤ 1103 then Char.ofNat (n - 32)
  else if n = 1105 then Char.ofNat 1025
  else if n = 1263 ∨ n = 1179 ∨ n = 1203 ∨ n = 1207 ∨ n = 1171 then
    Char.ofNat (n - 1)
  else c

/-- Python `str.lower` on the same character repertoire. -/
def pyLower (c : Char) : Char :=
  let n := c.toNat
  if 65 ≤ n ∧ n ≤ 90 then Char.ofNat (n + 32)
  else if 1040 ≤ n ∧ n ≤ 1071 then Char.ofNat (n + 32)
  else if n = 1025 then Char.ofNat 1105
  else if n = 1262 ∨ n = 1178 ∨ n = 1202 ∨ n = 1206 ∨ n = 1170 then
    Char.ofNat (n + 1)
  else c

/-- Python `str.isalpha` on the same character repertoire. -/
def pyIsAlpha (c : Char) : Bool :=
  let n := c.toNat
  (65 ≤ n && n ≤ 90) || (97 ≤ n && n ≤ 122) ||
  (1040 ≤ n && n ≤ 1103) || n = 1025 || n = 1105 ||
  n = 1262 || n = 1263 || n = 1178 || n = 1179 ||
  n = 1202 || n = 1203 || n = 1206 || n = 1207 ||
  n = 1170 || n = 1171

/-- Bounding box payload (`bbox`); carried through unchanged, never
inspected by the pipeline, so its coordinate type is irrelevant. -/
structure BBox where
  x0 : Int
  y0 : Int
  x1 : Int
  y1 : Int
deriving DecidableEq, Repr

/-- `TextBlock`: raw extracted fragment from a document page. -/
structure TextBlock where
  text : Str
  page : Int
  order : Int
  bbox : Option BBox := none
  source : Str := []
deriving DecidableEq, Repr

/-- Structural kind of a `Unit`. -/
inductive UKind where
  | heading
  | paragraph
  | listItem
  | tableLike
deriving DecidableEq, Repr

/-- `Unit`: classified segment after normalization and structure
detection (named `TUnit` to avoid clashing with Lean's `Unit`). -/
structure TUnit where
  text : Str
  kind : UKind
  pageStart : Int
  pageEnd : Int
  order : Int
  sectionPath : List Str := []
deriving DecidableEq, Repr

/-- `ChunkResult`: final chunk ready for storage and indexing. -/
structure ChunkResult where
  chunkIndex : Nat
  text : Str
  pageStart : Int
  pageEnd : Int
  sectionPath : List Str := []
deriving DecidableEq, Repr

/-- Chunker configuration (`target_tokens`, `max_tokens`, `min_tokens`,
`overlap_tokens`). `CHARS_PER_TOKEN = 3.6` is fixed as the ratio 18/5. -/
structure ChunkConfig where
  targetTokens : Nat
  maxTokens : Nat
  minTokens : Nat
  overlapTokens : Nat
deriving DecidableEq, Repr

/-- `_estimate_tokens`: `max(1, int(len(text) / 3.6))`, i.e.
`max 1 (len * 5 / 18)`. -/
def estimateTokens (s : Str) : Nat :=
  max 1 (s.length * 5 / 18)

/-- `text.replace("\r\n", "\n").replace("\r", "\n")`. -/
def fixCR : Str → Str
  | [] => []
  | '\r' :: '\n' :: rest => '\n' :: fixCR rest
  | '\r' :: rest => '\n' :: fixCR rest
  | c :: rest => c :: fixCR rest

/-- `re.sub(r"-\s*\n\s*", "", text)`: a hyphen followed by a whitespace
run containing a newline is removed together with that whole run (the
greedy match consumes the maximal whitespace run around its newline). -/
def fixHyphenGo : Nat → Str → Str
  | _, [] => []
  | 0, s => s
  | fuel + 1, c :: rest =>
    if c = '-' ∧ '\n' ∈ rest.takeWhile isWs then
      fixHyphenGo fuel (rest.dropWhile isWs)
    else
      c :: fixHyphenGo fuel rest

/-- `re.sub(r"-\s*\n\s*", "", text)` with enough fuel. -/
def fixHyphen (s : Str) : Str := fixHyphenGo s.length s

/-- Space or tab (the regex class `[ \t]`). -/
def isSpTab (c : Char) : Bool := c = ' ' || c = '\t'

/-- `re.sub(r"[ \t]+", " ", text)`: each maximal run of spaces/tabs
becomes a single space. -/
def collapseSpacesGo : Nat → Str → Str
  | _, [] => []
  | 0, s => s
  | fuel + 1, c :: rest =>
    if isSpTab c then ' ' :: collapseSpacesGo fuel (rest.dropWhile isSpTab)
    else c :: collapseSpacesGo fuel rest

/-- `re.sub(r"[ \t]+", " ", text)` with enough fuel. -/
def collapseSpaces (s : Str) : Str := collapseSpacesGo s.length s

/-- `re.sub(r"\n{3,}", "\n\n", text)`: newline runs of length ≥ 3
collapse to exactly two newlines; shorter runs are untouched. -/
def collapseNLGo : Nat → Str → Str
  | _, [] => []
  | 0, s => s
  | fuel + 1, c :: rest =>
    if c = '\n' then
      List.replicate (min ((rest.takeWhile (fun d => d = '\n')).length + 1) 2)
          '\n' ++
        collapseNLGo fuel (rest.dropWhile (fun d => d = '\n'))
    else c :: collapseNLGo fuel rest

/-- `re.sub(r"\n{3,}", "\n\n", text)` with enough fuel. -/
def collapseNL (s : Str) : Str := collapseNLGo s.length s

/-- `_PAGE_NUMBER.match(text)` on already-stripped text: the pattern
`^\s*\d{1,4}\s*$` matches a stripped string iff it is 1 to 4 digits. -/
def isPageNumber (s : Str) : Bool :=
  !s.isEmpty && s.all Char.isDigit && s.length ≤ 4

/-- Per-block text transform of `_normalize_blocks`. -/
def normalizeText (s : Str) : Str :=
  strip (collapseNL (collapseSpaces (fixHyphen (fixCR s))))

/-- `_normalize_blocks`: normalize each block's text and drop blocks
that end up empty or are standalone page numbers. -/
def normalizeBlocks : List TextBlock → List TextBlock
  | [] => []
  | b :: bs =>
    let t := normalizeText b.text
    if t = [] ∨ isPageNumber t = true then normalizeBlocks bs
    else { text := t, page := b.page, order := b.order,
           bbox := b.bbox, source := b.source } :: normalizeBlocks bs

/-- A three-page document with a repeated boundary line. -/
def hfBlocks : List TextBlock :=
  [{ text := "шапка".toList, page := 1, order := 0 },
   { text := "тело один".toList, page := 1, order := 1 },
   { text := "шапка".toList, page := 2, order := 2 },
   { text := "тело два".toList, page := 2, order := 3 },
   { text := "шапка".toList, page := 3, order := 4 },
   { text := "тело три".toList, page := 3, order := 5 }]

/-- Configuration with overlap enabled (`overlap_tokens = 100`). -/
def ovCfg : ChunkConfig :=
  { targetTokens := 450, maxTokens := 800, minTokens := 200,
    overlapTokens := 100 }

/-- A paragraph followed by a weak heading (short uppercase line):
the weak-heading chunk is undersized and gets merged by the
postprocessor. -/
def wkBlocks : List TextBlock :=
  [{ text := "Обычный абзац текста достаточно длинный для теста.".toList,
     page := 1, order := 0 },
   { text := "ВВЕДЕНИЕ".toList, page := 1, order := 1 }]

/-- Two blocks that chunk into a short chunk followed by a
strong-heading chunk. -/
def ovBlocks : List TextBlock :=
  [{ text := "aaaa".toList, page := 1, order := 0 },
   { text := "ГЛАВА 2".toList, page := 1, order := 1 }]

/-- After `fixHyphen`, no hyphen is followed by a whitespace run
containing a newline. -/
def noHyphBreak : Str → Prop
  | [] => True
  | c :: rest => (c = '-' → '\n' ∉ rest.takeWhile isWs) ∧ noHyphBreak rest

/-- After `collapseSpaces`: no tabs, and no space directly followed by
another space or tab. -/
def spacesOk : Str → Prop
  | [] => True
  | c :: rest =>
    c ≠ '\t' ∧ (c = ' ' → rest.takeWhile isSpTab = []) ∧ spacesOk rest

/-- After `collapseNL`: no newline run of length three or more. -/
def nlOk : Str → Prop
  | [] => True
  | c :: rest =>
    (c = '\n' → (rest.takeWhile (fun d => d = '\n')).length ≤ 1) ∧ nlOk rest

/-- Python `text.split("\n")` (keeps empty parts, `"".split` gives one
empty part). -/
def splitNl : Str → List Str
  | [] => [[]]
  | c :: rest =>
    let r := splitNl rest
    if c = '\n' then [] :: r
    else (c :: r.headI) :: r.tail

/-- After a heading keyword the patterns require whitespace then a
digit (`\s+\d+`). -/
def afterKwWsDigit (rest : Str) : Bool :=
  !(rest.takeWhile isWs).isEmpty &&
    (match rest.dropWhile isWs with
     | d :: _ => d.isDigit
     | [] => false)

/-- Keyword-plus-number heading pattern: one of the given (uppercase)
keywords at the start, then whitespace and a digit. -/
def matchKwNum (kws : List Str) (l : Str) : Bool :=
  kws.any (fun k => k.isPrefixOf l && afterKwWsDigit (l.drop k.length))

/-- The five keywords of the first heading pattern
(`СТАТЬЯ|ГЛАВА|РАЗДЕЛ|БОБИ|МОДДАИ`, case-insensitive). -/
def headingKws : List Str :=
  ["СТАТЬЯ".toList, "ГЛАВА".toList, "РАЗДЕЛ".toList,
   "БОБИ".toList, "МОДДАИ".toList]

/-- First heading pattern (keyword + number, `re.IGNORECASE`). -/
def heading1 (l : Str) : Bool :=
  matchKwNum headingKws (l.map pyUpper)

/-- Consume `(\.\d+)*` groups: returns the number of groups and the
remaining suffix. -/
def dotGroupsGo : Nat → Str → Nat × Str
  | 0, s => (0, s)
  | fuel + 1, s =>
    match s with
    | '.' :: rest =>
      if (rest.takeWhile Char.isDigit).isEmpty then (0, '.' :: rest)
      else
        let r := dotGroupsGo fuel (rest.dropWhile Char.isDigit)
        (r.1 + 1, r.2)
    | s => (0, s)

/-- Consume `(\.\d+)*` groups with enough fuel. -/
def dotGroups (s : Str) : Nat × Str := dotGroupsGo s.length s

/-- Second heading pattern `^\d+(?:\.\d+)+\s+\S+` (multi-level
numbering such as "1.2.3 Title"). -/
def headingDotted (l : Str) : Bool :=
  let ds := l.takeWhile Char.isDigit
  if ds.isEmpty then false
  else
    let g := dotGroups (l.dropWhile Char.isDigit)
    decide (1 ≤ g.1) && !(g.2.takeWhile isWs).isEmpty &&
      !(g.2.dropWhile isWs).isEmpty

/-- Roman-numeral characters `[IVXLCDM]`. -/
def isRoman (c : Char) : Bool := "IVXLCDM".toList.contains c

/-- Third heading pattern `^[IVXLCDM]+\.\s+\S+`. -/
def headingRoman (l : Str) : Bool :=
  let rs := l.takeWhile isRoman
  !rs.isEmpty &&
    (match l.dropWhile isRoman with
     | '.' :: rest =>
       !(rest.takeWhile isWs).isEmpty && !(rest.dropWhile isWs).isEmpty
     | _ => false)

/-- `_HEADING_PATTERNS[:3]` applied to a line: the three strong heading
patterns used by `_classify_kind` and `_postprocess`. -/
def strongHeading (l : Str) : Bool :=
  heading1 l || headingDotted l || headingRoman l

/-- Bullet characters of `_LIST_PATTERN`. -/
def isBullet (c : Char) : Bool := "-–—•".toList.contains c

/-- `[.)]`. -/
def isDotParen (c : Char) : Bool := c = '.' || c = ')'

/-- Letter class `[a-zа-яёӯқҳҷғ]` of `_LIST_PATTERN` under
`re.IGNORECASE` (so uppercase letters match too). -/
def isListLetter (c : Char) : Bool :=
  let n := (pyLower c).toNat
  (97 ≤ n && n ≤ 122) || (1072 ≤ n && n ≤ 1103) || n = 1105 ||
  n = 1263 || n = 1179 || n = 1203 || n = 1207 || n = 1171

/-- `_LIST_PATTERN.match(first_line)`: bullet, numbered or lettered
list marker followed by whitespace. -/
def matchList (l : Str) : Bool :=
  match l with
  | [] => false
  | c :: rest =>
    if isBullet c then !(rest.takeWhile isWs).isEmpty
    else
      (let ds := l.takeWhile Char.isDigit
       !ds.isEmpty &&
         (match l.dropWhile Char.isDigit with
          | p :: r2 => isDotParen p && !(r2.takeWhile isWs).isEmpty
          | [] => false)) ||
      (isListLetter c &&
        (match rest with
         | p :: r2 => isDotParen p && !(r2.takeWhile isWs).isEmpty
         | [] => false))

/-- `(?:\t\S+){2,}` searched anywhere in a line: a tab, a nonempty
non-whitespace run, another tab and a further non-whitespace char. -/
def tabCols : Str → Bool
  | [] => false
  | c :: rest =>
    (c = '\t' &&
      (let run := rest.takeWhile (fun d => !isWs d)
       !run.isEmpty &&
         (match rest.dropWhile (fun d => !isWs d) with
          | '\t' :: d :: _ => !isWs d
          | _ => false))) ||
    tabCols rest

/-- `_TABLE_PATTERN.search(line)`: at least two pipes anywhere, or
tab-separated columns. -/
def tablePat (l : Str) : Bool :=
  decide (2 ≤ l.countP (fun c => c = '|')) || tabCols l

/-- First line of a text as `_classify_kind` computes it:
`text.strip().split("\n")[0].strip()`. -/
def firstLineOf (text : Str) : Str :=
  strip ((strip text).takeWhile (fun c => !(c = '\n')))

/-- `_classify_kind`: table > list > strong heading > weak heading >
paragraph, first match wins. -/
def classifyKind (text : Str) : UKind :=
  let stripped := strip text
  let lines := splitNl stripped
  let firstLine := firstLineOf text
  if 2 ≤ lines.length ∧ 2 ≤ lines.countP tablePat then UKind.tableLike
  else if matchList firstLine then UKind.listItem
  else if strongHeading firstLine then UKind.heading
  else if decide (lines.length ≤ 2) && decide (firstLine.length ≤ 80) &&
      decide (firstLine = firstLine.map pyUpper) &&
      !(decide (firstLine.getLast? = some '.')) &&
      decide (3 < firstLine.length) && firstLine.any pyIsAlpha then
    UKind.heading
  else UKind.paragraph

/-- `_heading_level`: chapter keywords → 0, article keywords → 1,
dotted numeric prefix → number of dots, else 2. -/
def headingLevel (headingText : Str) : Nat :=
  let h := strip (headingText.map pyUpper)
  if matchKwNum ["ГЛАВА".toList, "РАЗДЕЛ".toList, "БОБИ".toList] h then 0
  else if matchKwNum ["СТАТЬЯ".toList, "МОДДАИ".toList] h then 1
  else
    let ds := h.takeWhile Char.isDigit
    if ds.isEmpty then 2
    else
      let g := dotGroups (h.dropWhile Char.isDigit)
      if !(g.2.takeWhile isWs).isEmpty then g.1 else 2

/-- `re.split(r"\n\s*\n", text)`: split at a newline whose following
whitespace run contains another newline; the separator consumes the
run up to its last newline. -/
def splitParasGo : Nat → Str → Str → List Str
  | _, acc, [] => [acc.reverse]
  | 0, acc, s => [acc.reverse ++ s]
  | fuel + 1, acc, c :: rest =>
    if c = '\n' ∧ '\n' ∈ rest.takeWhile isWs then
      acc.reverse ::
        splitParasGo fuel []
          (((rest.takeWhile isWs).reverse.takeWhile
              (fun d => !(d = '\n'))).reverse ++ rest.dropWhile isWs)
    else splitParasGo fuel (c :: acc) rest

/-- `re.split(r"\n\s*\n", text)` from an empty accumulator. -/
def splitParas (s : Str) : List Str := splitParasGo s.length [] s

/-- Paragraph texts a block contributes: each paragraph stripped,
empty ones dropped. -/
def blockParas (b : TextBlock) : List Str :=
  ((splitParas b.text).map strip).filter (fun p => !p.isEmpty)

/-- Attach consecutive `order` numbers to the paragraphs of one block
(inheriting page, bbox and source). -/
def withOrders (b : TextBlock) : List Str → Int → List TextBlock
  | [], _ => []
  | p :: ps, n =>
    { text := p, page := b.page, order := n, bbox := b.bbox,
      source := b.source } :: withOrders b ps (n + 1)

/-- The renumbered sub-block sequence of `_blocks_to_units`. -/
def subBlocksGo : List TextBlock → Int → List TextBlock
  | [], _ => []
  | b :: bs, n =>
    let paras := blockParas b
    withOrders b paras n ++ subBlocksGo bs (n + paras.length)

/-- All sub-blocks, numbered from 0. -/
def subBlocksOf (blocks : List TextBlock) : List TextBlock :=
  subBlocksGo blocks 0

/-- One step of the section stack: a heading at level L truncates the
stack to length L and appends its first line. -/
def sectionStackStep (stack : List Str) (sb : TextBlock) : List Str :=
  if classifyKind sb.text = UKind.heading then
    let ht := firstLineOf sb.text
    stack.take (headingLevel ht) ++ [ht]
  else stack

/-- The unit-building loop of `_blocks_to_units`: classify each
sub-block, update the section stack on headings, snapshot the stack
into every unit. -/
def unitsGo : List TextBlock → List Str → List TUnit
  | [], _ => []
  | sb :: rest, stack =>
    let stack2 := sectionStackStep stack sb
    { text := sb.text, kind := classifyKind sb.text, pageStart := sb.page,
      pageEnd := sb.page, order := sb.order, sectionPath := stack2 } ::
      unitsGo rest stack2

/-- `_blocks_to_units`. -/
def blocksToUnits (blocks : List TextBlock) : List TUnit :=
  unitsGo (subBlocksOf blocks) []

/-- Normalization for header/footer comparison:
`re.sub(r"\s+", " ", b.text.strip().lower())`. -/
def collapseAllWsGo : Nat → Str → Str
  | _, [] => []
  | 0, s => s
  | fuel + 1, c :: rest =>
    if isWs c then ' ' :: collapseAllWsGo fuel (rest.dropWhile isWs)
    else c :: collapseAllWsGo fuel rest

/-- `re.sub(r"\s+", " ", text)` with enough fuel. -/
def collapseAllWs (s : Str) : Str := collapseAllWsGo s.length s

/-- The comparison key used by `_remove_headers_footers`. -/
def normCmp (s : Str) : Str := collapseAllWs ((strip s).map pyLower)

/-- Distinct pages in first-occurrence order (the iteration order of
the Python page dict). -/
def distinctPages (blocks : List TextBlock) : List Int :=
  blocks.foldl (fun acc b => if b.page ∈ acc then acc else acc ++ [b.page]) []

/-- Stable insertion into a list sorted by `order`
(Python `sorted(..., key=lambda b: b.order)` is stable). -/
def insertByOrder (b : TextBlock) : List TextBlock → List TextBlock
  | [] => [b]
  | x :: xs => if b.order < x.order then b :: x :: xs else x :: insertByOrder b xs

/-- Stable sort by `order`. -/
def sortByOrder (l : List TextBlock) : List TextBlock :=
  l.foldr insertByOrder []

/-- `sorted_blocks[:2] + sorted_blocks[-2:]`. -/
def boundary (l : List TextBlock) : List TextBlock :=
  l.take 2 ++ l.drop (l.length - 2)

/-- The deduplicated candidate lines of one page (`seen_on_page`): a
normalized line under 100 characters is recorded at most once. -/
def dedupCands : List TextBlock → List Str → List Str
  | [], _ => []
  | b :: bs, seen =>
    let n := normCmp b.text
    if n.length < 100 ∧ n ∉ seen then n :: dedupCands bs (n :: seen)
    else dedupCands bs seen

/-- Candidate lines contributed by one page. -/
def candLinesOfPage (blocks : List TextBlock) (p : Int) : List Str :=
  dedupCands (boundary (sortByOrder (blocks.filter (fun b => b.page = p)))) []

/-- The `candidate_counter` value for one line: occurrences over all
pages. -/
def counterCount (blocks : List TextBlock) (line : Str) : Nat :=
  ((distinctPages blocks).map (fun p => candLinesOfPage blocks p)).foldl
    (fun acc l => acc + l.count line) 0

/-- `_remove_headers_footers`: on ≥ 3 pages, drop every block whose
normalized text reaches the 60% page-frequency threshold
(`count >= total_pages * 0.6`, i.e. `5 * count ≥ 3 * total`). -/
def removeHeadersFooters (blocks : List TextBlock) : List TextBlock :=
  if blocks = [] then blocks
  else if (distinctPages blocks).length < 3 then blocks
  else blocks.filter (fun b =>
    decide (5 * counterCount blocks (normCmp b.text) <
      3 * (distinctPages blocks).length))

/-- Sentence-ending characters of `_SENTENCE_SPLIT` (`[.!?։]`). -/
def isSentEnd (c : Char) : Bool :=
  c = '.' || c = '!' || c = '?' || c = '։'

/-- `_SENTENCE_SPLIT.split(text)` (`(?<=[.!?։])\s+`): cut after a
sentence-ending character followed by whitespace; the whitespace run
is consumed. -/
def splitSentencesGo : Nat → Str → Str → List Str
  | _, acc, [] => [acc.reverse]
  | 0, acc, s => [acc.reverse ++ s]
  | fuel + 1, acc, c :: rest =>
    if isSentEnd c ∧ !(rest.takeWhile isWs).isEmpty then
      (c :: acc).reverse :: splitSentencesGo fuel [] (rest.dropWhile isWs)
    else splitSentencesGo fuel (c :: acc) rest

/-- `_SENTENCE_SPLIT.split(text)`. -/
def splitSentences (s : Str) : List Str := splitSentencesGo s.length [] s

/-- `int(max_tokens * 3.6)` (exact: `max_tokens * 18 / 5`). -/
def maxCharsOf (maxTokens : Nat) : Nat := maxTokens * 18 / 5

/-- `[text[i:i+k] for i in range(0, len(text), k)]`. -/
def hardSlicesGo (k : Nat) : Nat → Str → List Str
  | _, [] => []
  | 0, s => [s]
  | fuel + 1, c :: rest =>
    if k = 0 then [c :: rest]
    else (c :: rest).take k :: hardSlicesGo k fuel ((c :: rest).drop k)

/-- `[text[i:i+k] for i in range(0, len(text), k)]` with enough fuel. -/
def hardSlices (k : Nat) (s : Str) : List Str := hardSlicesGo k s.length s

/-- The sentence-combining loop of `_split_oversized`. -/
def splitOversizedLoop (cfg : ChunkConfig) : List Str → Str → List Str
  | [], current => if current.isEmpty then [] else [current]
  | sentence :: rest, current =>
    let s := strip sentence
    if s.isEmpty then splitOversizedLoop cfg rest current
    else
      let candidate := if current.isEmpty then s
                       else strip (current ++ ' ' :: s)
      if cfg.maxTokens < estimateTokens candidate then
        (if current.isEmpty then [] else [current]) ++
        (if cfg.maxTokens < estimateTokens s then
          hardSlices (maxCharsOf cfg.maxTokens) s ++
            splitOversizedLoop cfg rest []
         else splitOversizedLoop cfg rest s)
      else splitOversizedLoop cfg rest candidate

/-- `_split_oversized`: split by sentences, hard-slice what is still
too large. -/
def splitOversized (cfg : ChunkConfig) (text : Str) : List Str :=
  let sentences := splitSentences text
  if sentences.length ≤ 1 ∧ cfg.maxTokens < estimateTokens text then
    hardSlices (maxCharsOf cfg.maxTokens) text
  else splitOversizedLoop cfg sentences []

/-- Mutable state of the `_pack_units` loop. -/
structure PackState where
  chunks : List ChunkResult
  curTexts : List Str
  curTokens : Nat
  pageStart : Int
  pageEnd : Int
  path : List Str
deriving DecidableEq, Repr

/-- `"\n\n".join(current_texts)`. -/
def joinNN : List Str → Str
  | [] => []
  | [t] => t
  | t :: rest => t ++ '\n' :: '\n' :: joinNN rest

/-- `_flush`: emit the buffer as a chunk when its joined stripped text
is non-empty; always clear the buffer. -/
def flushState (st : PackState) : PackState :=
  let t := strip (joinNN st.curTexts)
  { st with
    chunks := if t.isEmpty then st.chunks
      else st.chunks ++ [{ chunkIndex := 0, text := t,
                           pageStart := st.pageStart, pageEnd := st.pageEnd,
                           sectionPath := st.path }],
    curTexts := [], curTokens := 0 }

/-- The page/path reassignment done after each flush call site. -/
def resetMeta (u : TUnit) (st : PackState) : PackState :=
  { st with pageStart := u.pageStart, pageEnd := u.pageEnd,
            path := u.sectionPath }

/-- One iteration of the piece-feeding loop for oversized units. -/
def feedPiece (cfg : ChunkConfig) (u : TUnit) (st : PackState)
    (piece : Str) : PackState :=
  let pt := estimateTokens piece
  let st1 := if cfg.maxTokens < st.curTokens + pt ∧ st.curTexts ≠ []
    then resetMeta u (flushState st) else st
  { st1 with curTexts := st1.curTexts ++ [piece],
             curTokens := st1.curTokens + pt, pageEnd := u.pageEnd }

/-- One iteration of the `_pack_units` loop. -/
def packStep (cfg : ChunkConfig) (st : PackState) (u : TUnit) : PackState :=
  let ut := estimateTokens u.text
  let st1 := if u.kind = UKind.heading ∧ st.curTexts ≠ []
    then resetMeta u (flushState st) else st
  let st2 := if cfg.maxTokens < st1.curTokens + ut ∧ st1.curTexts ≠ [] ∧
      cfg.minTokens ≤ st1.curTokens
    then resetMeta u (flushState st1) else st1
  if cfg.maxTokens < ut then
    let st3 := if st2.curTexts ≠ [] then resetMeta u (flushState st2) else st2
    (splitOversized cfg u.text).foldl (feedPiece cfg u) st3
  else
    let st3 := if cfg.targetTokens ≤ st2.curTokens ∧ st2.curTexts ≠ [] ∧
        (u.kind = UKind.heading ∨ u.kind = UKind.paragraph)
      then resetMeta u (flushState st2) else st2
    { st3 with curTexts := st3.curTexts ++ [u.text],
               curTokens := st3.curTokens + ut, pageEnd := u.pageEnd,
               path := if st3.path = [] then u.sectionPath else st3.path }

/-- Initial packer state (page range and path of the first unit). -/
def initState (u0 : TUnit) : PackState :=
  { chunks := [], curTexts := [], curTokens := 0,
    pageStart := u0.pageStart, pageEnd := u0.pageEnd, path := u0.sectionPath }

/-- `_pack_units`. -/
def packUnits (cfg : ChunkConfig) : List TUnit → List ChunkResult
  | [] => []
  | u0 :: rest =>
    (flushState ((u0 :: rest).foldl (packStep cfg) (initState u0))).chunks

/-- Merge an undersized chunk into its predecessor. -/
def mergeChunks (prev c : ChunkResult) : ChunkResult :=
  { prev with
      text := prev.text ++ '\n' :: '\n' :: c.text,
      pageEnd := max prev.pageEnd c.pageEnd,
      sectionPath := if prev.sectionPath.length < c.sectionPath.length
                     then c.sectionPath else prev.sectionPath }

/-- One `_postprocess` iteration: state is (finished chunks, current
last chunk). -/
def ppStep (cfg : ChunkConfig) (st : List ChunkResult × ChunkResult)
    (c : ChunkResult) : List ChunkResult × ChunkResult :=
  if estimateTokens c.text < cfg.minTokens ∧
     estimateTokens (st.2.text ++ '\n' :: '\n' :: c.text) ≤ cfg.maxTokens ∧
     ¬ strongHeading (firstLineOf c.text) = true then
    (st.1, mergeChunks st.2 c)
  else (st.1 ++ [st.2], c)

/-- `_postprocess`. -/
def postprocessChunks (cfg : ChunkConfig) : List ChunkResult → List ChunkResult
  | [] => []
  | c0 :: rest =>
    let r := rest.foldl (ppStep cfg) ([], c0)
    r.1 ++ [r.2]

/-- `prev_text[-overlap_chars:]`. -/
def lastN (n : Nat) (l : Str) : Str := l.drop (l.length - n)

/-- Word-boundary trim: drop up to and including the first space if it
is at a positive index. -/
def overlapTail (tail : Str) : Str :=
  match tail.findIdx? (fun c => c = ' ') with
  | some i => if 0 < i then tail.drop (i + 1) else tail
  | none => tail

/-- One `_apply_overlap` iteration: prepend the trailing slice of the
previous chunk's (current) text when that text is longer than
`overlap_chars`. -/
def overlapStep (cfg : ChunkConfig) (prevText : Str) (c : ChunkResult) :
    ChunkResult :=
  let oc := cfg.overlapTokens * 18 / 5
  if oc < prevText.length then
    { c with text := '.' :: '.' :: '.' ::
                     (overlapTail (lastN oc prevText) ++ '\n' :: '\n' :: c.text) }
  else c

/-- The `_apply_overlap` loop; `prevText` is the (possibly already
extended) text of the previous chunk, as the in-place mutation in the
source makes each iteration read the previous iteration's result. -/
def applyOverlapGo (cfg : ChunkConfig) (prevText : Str) :
    List ChunkResult → List ChunkResult
  | [] => []
  | c :: rest =>
    let c2 := overlapStep cfg prevText c
    c2 :: applyOverlapGo cfg c2.text rest

/-- `_apply_overlap`. -/
def applyOverlap (cfg : ChunkConfig) : List ChunkResult → List ChunkResult
  | [] => []
  | [c] => [c]
  | c0 :: c1 :: rest =>
    if cfg.overlapTokens = 0 then c0 :: c1 :: rest
    else c0 :: applyOverlapGo cfg c0.text (c1 :: rest)

/-- Final dense index assignment. -/
def reindex (cs : List ChunkResult) : List ChunkResult :=
  cs.zipWith (fun c i => { c with chunkIndex := i }) (List.range cs.length)

/-- `HybridChunker.chunk`: the full pipeline. -/
def chunk (cfg : ChunkConfig) (blocks : List TextBlock) : List ChunkResult :=
  if blocks = [] then []
  else
    let bs := removeHeadersFooters (normalizeBlocks blocks)
    let us := blocksToUnits bs
    let cs := packUnits cfg us
    let cs2 := postprocessChunks cfg cs
    let cs3 := if 0 < cfg.overlapTokens then applyOverlap cfg cs2 else cs2
    reindex cs3

/-- The default configuration of `HybridChunker.__init__`. -/
def defaultConfig : ChunkConfig :=
  { targetTokens := 450, maxTokens := 800, minTokens := 200,
    overlapTokens := 0 }

/-- Small-budget configuration used by the C5 witness. -/
def c5Cfg : ChunkConfig :=
  { targetTokens := 4, maxTokens := 6, minTokens := 2, overlapTokens := 0 }

/-- A non-empty packer state used by the C5 witness. -/
def c5St : PackState :=
  { chunks := [], curTexts := ["абзац тут".toList], curTokens := 2,
    pageStart := 1, pageEnd := 1, path := [] }

/-- An oversized multi-sentence unit used by the C5 witness. -/
def c5Unit : TUnit :=
  { text := ("Первое предложение тут. Второе предложение тут. "
      ++ "Третье предложение.").toList,
    kind := UKind.paragraph, pageStart := 1, pageEnd := 1, order := 0,
    sectionPath := [] }

/-- A small unit used by the C5 witness piece step. -/
def c5Unit2 : TUnit :=
  { text := "x".toList, kind := UKind.paragraph, pageStart := 1,
    pageEnd := 1, order := 0, sectionPath := [] }

/-- A one-block document used by the C10 witness. -/
def aBlocks : List TextBlock :=
  [{ text := "aaaa".toList, page := 1, order := 0 }]

/-- The chunk produced from `aBlocks`. -/
def aChunk : ChunkResult :=
  { chunkIndex := 0, text := "aaaa".toList, pageStart := 1, pageEnd := 1,
    sectionPath := [] }

/-- The non-whitespace content of a text, in order: the claim C8
notion of "content" ("without content loss"). -/
def nws (s : Str) : Str := s.filter (fun c => !isWs c)

/-- Two tiny one-page blocks used by the C8 counterexample. -/
def abBlocks : List TextBlock :=
  [{ text := "a".toList, page := 1, order := 0 },
   { text := "b".toList, page := 1, order := 1 }]

/-- The non-whitespace content carried by a packer state: characters
already emitted in chunks followed by the buffered ones. -/
def packContent (st : PackState) : Str :=
  nws (st.chunks.map (fun c => c.text)).flatten ++ nws st.curTexts.flatten

/-- The non-whitespace content carried by a postprocessor state. -/
def ppContent (st : List ChunkResult × ChunkResult) : Str :=
  nws (st.1.map (fun c => c.text)).flatten ++ nws st.2.text

/-! ## Theorems -/

/-! ### Fuel elimination: the fueled scanners agree with themselves at
any sufficient fuel, giving the original recursion equations. -/

theorem fixHyphenGo_nil (f : Nat) : fixHyphenGo f [] = [] := by
  cases f <;> rfl

theorem fixHyphenGo_succ (f : Nat) (c : Char) (rest : Str) :
    fixHyphenGo (f + 1) (c :: rest) =
      if c = '-' ∧ '\n' ∈ rest.takeWhile isWs then
        fixHyphenGo f (rest.dropWhile isWs)
      else c :: fixHyphenGo f rest := rfl

theorem fixHyphenGo_congr : ∀ (fuel : Nat) (s : Str), s.length ≤ fuel →
    fixHyphenGo fuel s = fixHyphen s := by
  intro fuel
  induction fuel using Nat.strong_induction_on with
  | _ fuel ih =>
    intro s hs
    cases s with
    | nil => rw [fixHyphenGo_nil]; rfl
    | cons c rest =>
      cases fuel with
      | zero => simp at hs
      | succ f =>
        have hr : rest.length ≤ f := by
          simp only [List.length_cons] at hs
          omega
        rw [fixHyphenGo_succ]
        show _ = fixHyphenGo (rest.length + 1) (c :: rest)
        rw [fixHyphenGo_succ]
        by_cases hc : c = '-' ∧ '\n' ∈ rest.takeWhile isWs
        · rw [if_pos hc, if_pos hc,
            ih f (Nat.lt_succ_self f) _
              (le_trans (List.dropWhile_sublist _).length_le hr),
            ih rest.length (Nat.lt_succ_of_le hr) _
              ((List.dropWhile_sublist _).length_le)]
        · rw [if_neg hc, if_neg hc, ih f (Nat.lt_succ_self f) rest hr,
            ih rest.length (Nat.lt_succ_of_le hr) rest le_rfl]

theorem fixHyphen_nil : fixHyphen [] = [] := rfl

theorem fixHyphen_cons (c : Char) (rest : Str) :
    fixHyphen (c :: rest) =
      if c = '-' ∧ '\n' ∈ rest.takeWhile isWs then
        fixHyphen (rest.dropWhile isWs)
      else c :: fixHyphen rest := by
  show fixHyphenGo (rest.length + 1) (c :: rest) = _
  rw [fixHyphenGo_succ]
  by_cases hc : c = '-' ∧ '\n' ∈ rest.takeWhile isWs
  · rw [if_pos hc, if_pos hc,
      fixHyphenGo_congr _ _ ((List.dropWhile_sublist _).length_le)]
  · rw [if_neg hc, if_neg hc, fixHyphenGo_congr _ _ le_rfl]

theorem fixHyphen_ind (motive : Str → Prop) (case1 : motive [])
    (case2 : ∀ c rest, (c = '-' ∧ '\n' ∈ rest.takeWhile isWs) →
      motive (rest.dropWhile isWs) → motive (c :: rest))
    (case3 : ∀ c rest, ¬(c = '-' ∧ '\n' ∈ rest.takeWhile isWs) →
      motive rest → motive (c :: rest)) :
    ∀ s, motive s := by
  have key : ∀ n s, s.length ≤ n → motive s := by
    intro n
    induction n with
    | zero =>
      intro s hs
      cases s with
      | nil => exact case1
      | cons c rest => simp at hs
    | succ n ih =>
      intro s hs
      cases s with
      | nil => exact case1
      | cons c rest =>
        have hr : rest.length ≤ n := by
          simp only [List.length_cons] at hs
          omega
        by_cases hc : c = '-' ∧ '\n' ∈ rest.takeWhile isWs
        · exact case2 c rest hc
            (ih _ (le_trans (List.dropWhile_sublist _).length_le hr))
        · exact case3 c rest hc (ih rest hr)
  exact fun s => key s.length s le_rfl

theorem collapseSpacesGo_nil (f : Nat) : collapseSpacesGo f [] = [] := by
  cases f <;> rfl

theorem collapseSpacesGo_succ (f : Nat) (c : Char) (rest : Str) :
    collapseSpacesGo (f + 1) (c :: rest) =
      if isSpTab c then ' ' :: collapseSpacesGo f (rest.dropWhile isSpTab)
      else c :: collapseSpacesGo f rest := rfl

theorem collapseSpacesGo_congr : ∀ (fuel : Nat) (s : Str), s.length ≤ fuel →
    collapseSpacesGo fuel s = collapseSpaces s := by
  intro fuel
  induction fuel using Nat.strong_induction_on with
  | _ fuel ih =>
    intro s hs
    cases s with
    | nil => rw [collapseSpacesGo_nil]; rfl
    | cons c rest =>
      cases fuel with
      | zero => simp at hs
      | succ f =>
        have hr : rest.length ≤ f := by
          simp only [List.length_cons] at hs
          omega
        rw [collapseSpacesGo_succ]
        show _ = collapseSpacesGo (rest.length + 1) (c :: rest)
        rw [collapseSpacesGo_succ]
        by_cases hc : isSpTab c
        · rw [if_pos hc, if_pos hc,
            ih f (Nat.lt_succ_self f) _
              (le_trans (List.dropWhile_sublist _).length_le hr),
            ih rest.length (Nat.lt_succ_of_le hr) _
              ((List.dropWhile_sublist _).length_le)]
        · rw [if_neg hc, if_neg hc, ih f (Nat.lt_succ_self f) rest hr,
            ih rest.length (Nat.lt_succ_of_le hr) rest le_rfl]

theorem collapseSpaces_nil : collapseSpaces [] = [] := rfl

theorem collapseSpaces_cons (c : Char) (rest : Str) :
    collapseSpaces (c :: rest) =
      if isSpTab c then ' ' :: collapseSpaces (rest.dropWhile isSpTab)
      else c :: collapseSpaces rest := by
  show collapseSpacesGo (rest.length + 1) (c :: rest) = _
  rw [collapseSpacesGo_succ]
  by_cases hc : isSpTab c
  · rw [if_pos hc, if_pos hc,
      collapseSpacesGo_congr _ _ ((List.dropWhile_sublist _).length_le)]
  · rw [if_neg hc, if_neg hc, collapseSpacesGo_congr _ _ le_rfl]

theorem collapseSpaces_ind (motive : Str → Prop) (case1 : motive [])
    (case2 : ∀ c rest, isSpTab c = true →
      motive (rest.dropWhile isSpTab) → motive (c :: rest))
    (case3 : ∀ c rest, ¬ isSpTab c = true →
      motive rest → motive (c :: rest)) :
    ∀ s, motive s := by
  have key : ∀ n s, s.length ≤ n → motive s := by
    intro n
    induction n with
    | zero =>
      intro s hs
      cases s with
      | nil => exact case1
      | cons c rest => simp at hs
    | succ n ih =>
      intro s hs
      cases s with
      | nil => exact case1
      | cons c rest =>
        have hr : rest.length ≤ n := by
          simp only [List.length_cons] at hs
          omega
        by_cases hc : isSpTab c
        · exact case2 c rest hc
            (ih _ (le_trans (List.dropWhile_sublist _).length_le hr))
        · exact case3 c rest hc (ih rest hr)
  exact fun s => key s.length s le_rfl

theorem collapseNLGo_nil (f : Nat) : collapseNLGo f [] = [] := by
  cases f <;> rfl

theorem collapseNLGo_succ (f : Nat) (c : Char) (rest : Str) :
    collapseNLGo (f + 1) (c :: rest) =
      if c = '\n' then
        List.replicate
            (min ((rest.takeWhile (fun d => d = '\n')).length + 1) 2) '\n' ++
          collapseNLGo f (rest.dropWhile (fun d => d = '\n'))
      else c :: collapseNLGo f rest := rfl

theorem collapseNLGo_congr : ∀ (fuel : Nat) (s : Str), s.length ≤ fuel →
    collapseNLGo fuel s = collapseNL s := by
  intro fuel
  induction fuel using Nat.strong_induction_on with
  | _ fuel ih =>
    intro s hs
    cases s with
    | nil => rw [collapseNLGo_nil]; rfl
    | cons c rest =>
      cases fuel with
      | zero => simp at hs
      | succ f =>
        have hr : rest.length ≤ f := by
          simp only [List.length_cons] at hs
          omega
        rw [collapseNLGo_succ]
        show _ = collapseNLGo (rest.length + 1) (c :: rest)
        rw [collapseNLGo_succ]
        by_cases hc : c = '\n'
        · rw [if_pos hc, if_pos hc,
            ih f (Nat.lt_succ_self f) _
              (le_trans (List.dropWhile_sublist _).length_le hr),
            ih rest.length (Nat.lt_succ_of_le hr) _
              ((List.dropWhile_sublist _).length_le)]
        · rw [if_neg hc, if_neg hc, ih f (Nat.lt_succ_self f) rest hr,
            ih rest.length (Nat.lt_succ_of_le hr) rest le_rfl]

theorem collapseNL_nil : collapseNL [] = [] := rfl

theorem collapseNL_cons (c : Char) (rest : Str) :
    collapseNL (c :: rest) =
      if c = '\n' then
        List.replicate
            (min ((rest.takeWhile (fun d => d = '\n')).length + 1) 2) '\n' ++
          collapseNL (rest.dropWhile (fun d => d = '\n'))
      else c :: collapseNL rest := by
  show collapseNLGo (rest.length + 1) (c :: rest) = _
  rw [collapseNLGo_succ]
  by_cases hc : c = '\n'
  · rw [if_pos hc, if_pos hc,
      collapseNLGo_congr _ _ ((List.dropWhile_sublist _).length_le)]
  · rw [if_neg hc, if_neg hc, collapseNLGo_congr _ _ le_rfl]

theorem collapseNL_ind (motive : Str → Prop) (case1 : motive [])
    (case2 : ∀ rest, motive (rest.dropWhile (fun d => d = '\n')) →
      motive ('\n' :: rest))
    (case3 : ∀ c rest, ¬ c = '\n' → motive rest → motive (c :: rest)) :
    ∀ s, motive s := by
  have key : ∀ n s, s.length ≤ n → motive s := by
    intro n
    induction n with
    | zero =>
      intro s hs
      cases s with
      | nil => exact case1
      | cons c rest => simp at hs
    | succ n ih =>
      intro s hs
      cases s with
      | nil => exact case1
      | cons c rest =>
        have hr : rest.length ≤ n := by
          simp only [List.length_cons] at hs
          omega
        by_cases hc : c = '\n'
        · subst hc
          exact case2 rest
            (ih _ (le_trans (List.dropWhile_sublist _).length_le hr))
        · exact case3 c rest hc (ih rest hr)
  exact fun s => key s.length s le_rfl

theorem takeWhile_dropWhile_nil {α : Type} (p : α → Bool) (l : List α) :
    (l.dropWhile p).takeWhile p = [] := by
  induction l with
  | nil => rfl
  | cons c rest ih =>
    by_cases h : p c
    · simpa [List.dropWhile_cons, h] using ih
    · simp [List.dropWhile_cons, List.takeWhile_cons, h]

theorem dropWhile_eq_self_of_takeWhile_nil {α : Type} {p : α → Bool}
    {l : List α} (h : l.takeWhile p = []) : l.dropWhile p = l := by
  cases l with
  | nil => rfl
  | cons c rest =>
    simp only [List.takeWhile_cons] at h
    by_cases hc : p c
    · simp [hc] at h
    · simp [List.dropWhile_cons, hc]

theorem mem_takeWhile_append {α : Type} {p : α → Bool} {x : α}
    {l b : List α} (h : x ∈ l.takeWhile p) : x ∈ (l ++ b).takeWhile p := by
  induction l with
  | nil => simp at h
  | cons c rest ih =>
    by_cases hc : p c
    · simp only [List.cons_append, List.takeWhile_cons, hc, if_true,
        List.mem_cons] at h ⊢
      rcases h with h | h
      · exact Or.inl h
      · exact Or.inr (ih h)
    · simp [List.takeWhile_cons, hc] at h

theorem takeWhile_append_of_all {α : Type} {p : α → Bool} {w : List α}
    (z : List α) (h : ∀ c ∈ w, p c) :
    (w ++ z).takeWhile p = w ++ z.takeWhile p := by
  induction w with
  | nil => rfl
  | cons c rest ih =>
    have hc : p c = true := h c (by simp)
    simp only [List.cons_append, List.takeWhile_cons, hc, if_true]
    rw [ih (fun d hd => h d (by simp [hd]))]

theorem length_takeWhile_le_append {α : Type} (p : α → Bool)
    (l b : List α) : (l.takeWhile p).length ≤ ((l ++ b).takeWhile p).length := by
  induction l with
  | nil => simp
  | cons c rest ih =>
    by_cases hc : p c
    · simpa [List.takeWhile_cons, hc] using ih
    · simp [List.takeWhile_cons, hc]

theorem mem_strip {c : Char} {s : Str} (h : c ∈ strip s) : c ∈ s := by
  unfold strip at h
  rw [List.mem_reverse] at h
  have h2 := List.dropWhile_subset (l := (s.dropWhile isWs).reverse) isWs h
  rw [List.mem_reverse] at h2
  exact List.dropWhile_subset isWs h2

theorem fixCR_no_cr (s : Str) : '\r' ∉ fixCR s := by
  induction s using fixCR.induct with
  | case1 => simp [fixCR]
  | case2 rest ih => simpa [fixCR] using ih
  | case3 rest hne ih => simpa [fixCR] using ih
  | case4 c rest h1 h2 ih =>
    simp only [fixCR, List.mem_cons]
    rintro (rfl | h)
    · exact h2 rfl
    · exact ih h

theorem fixCR_eq_self {s : Str} (h : '\r' ∉ s) : fixCR s = s := by
  induction s using fixCR.induct with
  | case1 => rfl
  | case2 rest ih => simp at h
  | case3 rest hne ih => simp at h
  | case4 c rest h1 h2 ih =>
    simp only [List.mem_cons, not_or] at h
    simp only [fixCR]
    rw [ih h.2]

theorem noHyphBreak_dropWhile {s : Str} (p : Char → Bool)
    (h : noHyphBreak s) : noHyphBreak (s.dropWhile p) := by
  induction s with
  | nil => exact h
  | cons c rest ih =>
    by_cases hc : p c
    · simp only [List.dropWhile_cons, hc, if_true]
      exact ih h.2
    · simpa [List.dropWhile_cons, hc] using h

theorem noHyphBreak_append_left {a b : Str}
    (h : noHyphBreak (a ++ b)) : noHyphBreak a := by
  induction a with
  | nil => trivial
  | cons c rest ih =>
    refine ⟨fun hc => ?_, ih h.2⟩
    intro hmem
    exact h.1 hc (mem_takeWhile_append hmem)

theorem fixHyphen_ws_prefix {w : Str} (t : Str) (h : ∀ c ∈ w, isWs c) :
    fixHyphen (w ++ t) = w ++ fixHyphen t := by
  induction w with
  | nil => rfl
  | cons c rest ih =>
    have hc : isWs c = true := h c (by simp)
    have hnd : ¬(c = '-') := by
      rintro rfl; simp [isWs] at hc
    rw [List.cons_append, fixHyphen_cons, if_neg (by tauto)]
    rw [ih (fun d hd => h d (by simp [hd]))]
    simp

theorem fixHyphen_takeWhile_nil {s : Str} (h : s.takeWhile isWs = []) :
    (fixHyphen s).takeWhile isWs = [] := by
  induction s using fixHyphen_ind with
  | case1 => simp [fixHyphen_nil, fixHyphen_cons]
  | case2 c rest hc ih =>
    simp only [fixHyphen_cons, if_pos hc]
    exact ih (takeWhile_dropWhile_nil isWs rest)
  | case3 c rest hc ih =>
    simp only [List.takeWhile_cons] at h
    by_cases hw : isWs c
    · simp [hw] at h
    · simp [fixHyphen_nil, fixHyphen_cons, if_neg hc, List.takeWhile_cons, hw]

theorem noHyphBreak_fixHyphen (s : Str) : noHyphBreak (fixHyphen s) := by
  induction s using fixHyphen_ind with
  | case1 => simp [fixHyphen_nil, fixHyphen_cons, noHyphBreak]
  | case2 c rest hc ih =>
    rw [fixHyphen_cons, if_pos hc]
    exact ih
  | case3 c rest hc ih =>
    simp only [fixHyphen_cons, if_neg hc]
    refine ⟨fun hdash => ?_, ih⟩
    have hnn : '\n' ∉ rest.takeWhile isWs := by
      intro hmem; exact hc ⟨hdash, hmem⟩
    have hsplit : rest = rest.takeWhile isWs ++ rest.dropWhile isWs :=
      (List.takeWhile_append_dropWhile (p := isWs) (l := rest)).symm
    have hall : ∀ d ∈ rest.takeWhile isWs, isWs d := by
      intro d hd; exact List.mem_takeWhile_imp hd
    have hfh : fixHyphen rest
        = rest.takeWhile isWs ++ fixHyphen (rest.dropWhile isWs) := by
      conv_lhs => rw [hsplit]
      exact fixHyphen_ws_prefix _ hall
    intro hmem
    rw [hfh, takeWhile_append_of_all _ hall] at hmem
    rcases List.mem_append.mp hmem with h | h
    · exact hnn h
    · rw [fixHyphen_takeWhile_nil (takeWhile_dropWhile_nil isWs rest)] at h
      simp at h

theorem fixHyphen_eq_self {s : Str} (h : noHyphBreak s) : fixHyphen s = s := by
  induction s with
  | nil => simp [fixHyphen_nil, fixHyphen_cons]
  | cons c rest ih =>
    have hno : ¬(c = '-' ∧ '\n' ∈ rest.takeWhile isWs) := by
      rintro ⟨rfl, hmem⟩
      exact h.1 rfl hmem
    simp only [fixHyphen_cons, if_neg hno]
    rw [ih h.2]

theorem isWs_of_isSpTab {c : Char} (h : isSpTab c = true) : isWs c = true := by
  simp only [isSpTab, Bool.or_eq_true, decide_eq_true_eq] at h
  rcases h with rfl | rfl <;> decide

theorem spacesOk_dropWhile {s : Str} (p : Char → Bool)
    (h : spacesOk s) : spacesOk (s.dropWhile p) := by
  induction s with
  | nil => exact h
  | cons c rest ih =>
    by_cases hc : p c
    · simp only [List.dropWhile_cons, hc, if_true]
      exact ih h.2.2
    · simpa [List.dropWhile_cons, hc] using h

theorem takeWhile_nil_of_append {α : Type} {p : α → Bool} {r b : List α}
    (h : (r ++ b).takeWhile p = []) : r.takeWhile p = [] := by
  cases r with
  | nil => rfl
  | cons d t =>
    simp only [List.cons_append, List.takeWhile_cons] at h ⊢
    by_cases hd : p d
    · rw [if_pos hd] at h
      exact absurd h (by simp)
    · rw [if_neg hd]

theorem spacesOk_append_left {a b : Str} (h : spacesOk (a ++ b)) :
    spacesOk a := by
  induction a with
  | nil => trivial
  | cons c rest ih =>
    exact ⟨h.1, fun hc => takeWhile_nil_of_append (h.2.1 hc), ih h.2.2⟩

theorem collapseSpaces_takeWhile_spTab_nil {z : Str}
    (h : z.takeWhile isSpTab = []) :
    (collapseSpaces z).takeWhile isSpTab = [] := by
  cases z with
  | nil => simp [collapseSpaces_nil, collapseSpaces_cons]
  | cons d r =>
    simp only [List.takeWhile_cons] at h
    by_cases hd : isSpTab d
    · rw [if_pos hd] at h
      exact absurd h (by simp)
    · simp [collapseSpaces_nil, collapseSpaces_cons, if_neg hd, List.takeWhile_cons, hd]

theorem spacesOk_collapseSpaces (s : Str) : spacesOk (collapseSpaces s) := by
  induction s using collapseSpaces_ind with
  | case1 => simp [collapseSpaces_nil, collapseSpaces_cons, spacesOk]
  | case2 c rest hc ih =>
    simp only [collapseSpaces_cons, if_pos hc]
    refine ⟨by decide, fun _ => ?_, ih⟩
    exact collapseSpaces_takeWhile_spTab_nil (takeWhile_dropWhile_nil _ _)
  | case3 c rest hc ih =>
    simp only [collapseSpaces_cons, if_neg hc]
    refine ⟨?_, fun hsp => ?_, ih⟩
    · rintro rfl
      exact hc (by decide)
    · exact absurd hsp (by rintro rfl; exact hc (by decide))

theorem collapseSpaces_eq_self {s : Str} (h : spacesOk s) :
    collapseSpaces s = s := by
  induction s with
  | nil => simp [collapseSpaces_nil, collapseSpaces_cons]
  | cons c rest ih =>
    by_cases hc : isSpTab c
    · have hsp : c = ' ' := by
        simp only [isSpTab, Bool.or_eq_true, decide_eq_true_eq] at hc
        rcases hc with rfl | rfl
        · rfl
        · exact absurd rfl h.1
      have htw : rest.takeWhile isSpTab = [] := h.2.1 hsp
      simp only [collapseSpaces_cons, if_pos hc,
        dropWhile_eq_self_of_takeWhile_nil htw]
      rw [ih h.2.2, hsp]
    · simp only [collapseSpaces_cons, if_neg hc]
      rw [ih h.2.2]

theorem nlOk_dropWhile {s : Str} (p : Char → Bool)
    (h : nlOk s) : nlOk (s.dropWhile p) := by
  induction s with
  | nil => exact h
  | cons c rest ih =>
    by_cases hc : p c
    · simp only [List.dropWhile_cons, hc, if_true]
      exact ih h.2
    · simpa [List.dropWhile_cons, hc] using h

theorem nlOk_append_left {a b : Str} (h : nlOk (a ++ b)) : nlOk a := by
  induction a with
  | nil => trivial
  | cons c rest ih =>
    refine ⟨fun hc => ?_, ih h.2⟩
    exact le_trans (length_takeWhile_le_append _ rest b) (h.1 hc)

theorem takeWhile_spTab_replicate_nl (k : Nat) (z : Str) (hk : 1 ≤ k) :
    (List.replicate k '\n' ++ z).takeWhile isSpTab = [] := by
  cases k with
  | zero => omega
  | succ m =>
    simp only [List.replicate_succ, List.cons_append, List.takeWhile_cons]
    rw [if_neg (by decide)]

theorem collapseNL_takeWhile_spTab_nil {z : Str}
    (h : z.takeWhile isSpTab = []) :
    (collapseNL z).takeWhile isSpTab = [] := by
  cases z with
  | nil => simp [collapseNL_nil, collapseNL_cons]
  | cons d r =>
    by_cases hd : d = '\n'
    · subst hd
      simp only [collapseNL_cons, if_pos rfl]
      refine takeWhile_spTab_replicate_nl _ _ ?_
      exact le_min (Nat.succ_le_succ (Nat.zero_le _)) (by omega)
    · simp only [List.takeWhile_cons] at h
      have hsp : ¬ isSpTab d = true := by
        intro hx
        rw [if_pos hx] at h
        exact absurd h (by simp)
      simp [collapseNL_nil, collapseNL_cons, if_neg hd, List.takeWhile_cons, hsp]

theorem spacesOk_replicate_nl (k : Nat) {z : Str} (h : spacesOk z) :
    spacesOk (List.replicate k '\n' ++ z) := by
  induction k with
  | zero => simpa using h
  | succ m ih =>
    simp only [List.replicate_succ, List.cons_append]
    exact ⟨by decide, fun hx => absurd hx (by decide), ih⟩

theorem spacesOk_collapseNL {s : Str} (h : spacesOk s) :
    spacesOk (collapseNL s) := by
  induction s using collapseNL_ind with
  | case1 => simp [collapseNL_nil, collapseNL_cons, spacesOk]
  | case2 rest ih =>
    simp only [collapseNL_cons, if_pos rfl]
    exact spacesOk_replicate_nl _ (ih (spacesOk_dropWhile _ h.2.2))
  | case3 c rest hc ih =>
    simp only [collapseNL_cons, if_neg hc]
    exact ⟨h.1, fun hsp => collapseNL_takeWhile_spTab_nil (h.2.1 hsp),
      ih h.2.2⟩

theorem collapseNL_takeWhile_nl_nil {z : Str}
    (h : z.takeWhile (fun d => d = '\n') = []) :
    (collapseNL z).takeWhile (fun d => d = '\n') = [] := by
  cases z with
  | nil => simp [collapseNL_nil, collapseNL_cons]
  | cons d r =>
    by_cases hd : d = '\n'
    · subst hd
      simp [List.takeWhile_cons] at h
    · simp [collapseNL_nil, collapseNL_cons, if_neg hd, List.takeWhile_cons, hd]

theorem nlOk_collapseNL (s : Str) : nlOk (collapseNL s) := by
  induction s using collapseNL_ind with
  | case1 => simp [collapseNL_nil, collapseNL_cons, nlOk]
  | case2 rest ih =>
    simp only [collapseNL_cons, if_pos rfl]
    have hz : (collapseNL (rest.dropWhile (fun d => d = '\n'))).takeWhile
        (fun d => d = '\n') = [] :=
      collapseNL_takeWhile_nl_nil (takeWhile_dropWhile_nil _ _)
    rcases Nat.lt_or_ge ((rest.takeWhile (fun d => d = '\n')).length + 1) 2
      with hlt | hge
    · rw [min_eq_left (by omega)]
      have h1 : (rest.takeWhile (fun d => d = '\n')).length + 1 = 1 := by omega
      rw [h1]
      simp only [List.replicate_succ, List.replicate_zero, List.nil_append,
        List.cons_append, List.nil_append]
      exact ⟨fun _ => by rw [hz]; simp, ih⟩
    · rw [min_eq_right (by omega)]
      simp only [List.replicate_succ, List.replicate_zero, List.nil_append,
        List.cons_append, List.nil_append]
      refine ⟨fun _ => ?_, fun _ => by rw [hz]; simp, ih⟩
      simp only [List.takeWhile_cons]
      rw [if_pos (by decide), hz]
      simp
  | case3 c rest hc ih =>
    simp only [collapseNL_cons, if_neg hc]
    exact ⟨fun hx => absurd hx hc, ih⟩

theorem takeWhile_nl_eq_replicate (l : Str) :
    l.takeWhile (fun d => d = '\n') =
      List.replicate ((l.takeWhile (fun d => d = '\n')).length) '\n' := by
  induction l with
  | nil => rfl
  | cons c rest ih =>
    by_cases hc : c = '\n'
    · subst hc
      simp only [List.takeWhile_cons, decide_True, if_pos]
      simp only [List.length_cons, List.replicate_succ]
      rw [← ih]
    · simp [List.takeWhile_cons, hc]

theorem collapseNL_eq_self {s : Str} (h : nlOk s) : collapseNL s = s := by
  induction s using collapseNL_ind with
  | case1 => simp [collapseNL_nil, collapseNL_cons]
  | case2 rest ih =>
    simp only [collapseNL_cons, if_pos rfl]
    have hlen : (rest.takeWhile (fun d => d = '\n')).length ≤ 1 := h.1 rfl
    rw [min_eq_left (by omega)]
    rw [ih (nlOk_dropWhile _ h.2)]
    simp only [List.replicate_succ]
    rw [← takeWhile_nl_eq_replicate]
    simp only [List.cons_append]
    rw [List.takeWhile_append_dropWhile]
    simp
  | case3 c rest hc ih =>
    simp only [collapseNL_cons, if_neg hc]
    rw [ih h.2]

theorem strip_append_eq (s : Str) :
    strip s ++ ((s.dropWhile isWs).reverse.takeWhile isWs).reverse =
      s.dropWhile isWs := by
  unfold strip
  rw [← List.reverse_append, List.takeWhile_append_dropWhile,
    List.reverse_reverse]

theorem strip_takeWhile_nil (s : Str) : (strip s).takeWhile isWs = [] := by
  cases hsp : strip s with
  | nil => rfl
  | cons x xs =>
    have h1 : (s.dropWhile isWs).takeWhile isWs = [] :=
      takeWhile_dropWhile_nil isWs s
    have h2 := strip_append_eq s
    rw [hsp, List.cons_append] at h2
    rw [← h2] at h1
    simp only [List.takeWhile_cons] at h1 ⊢
    by_cases hx : isWs x
    · rw [if_pos hx] at h1
      exact absurd h1 (by simp)
    · rw [if_neg hx]

theorem strip_reverse_takeWhile_nil (s : Str) :
    ((strip s).reverse).takeWhile isWs = [] := by
  unfold strip
  rw [List.reverse_reverse]
  exact takeWhile_dropWhile_nil isWs _

theorem strip_strip (s : Str) : strip (strip s) = strip s := by
  have h1 : (strip s).dropWhile isWs = strip s :=
    dropWhile_eq_self_of_takeWhile_nil (strip_takeWhile_nil s)
  have h2 : ((strip s).reverse).dropWhile isWs = (strip s).reverse :=
    dropWhile_eq_self_of_takeWhile_nil (strip_reverse_takeWhile_nil s)
  show ((((strip s).dropWhile isWs).reverse.dropWhile isWs)).reverse = strip s
  rw [h1, h2, List.reverse_reverse]

theorem noHyphBreak_strip {s : Str} (h : noHyphBreak s) :
    noHyphBreak (strip s) := by
  have h1 : noHyphBreak (s.dropWhile isWs) := noHyphBreak_dropWhile _ h
  rw [← strip_append_eq s] at h1
  exact noHyphBreak_append_left h1

theorem spacesOk_strip {s : Str} (h : spacesOk s) : spacesOk (strip s) := by
  have h1 : spacesOk (s.dropWhile isWs) := spacesOk_dropWhile _ h
  rw [← strip_append_eq s] at h1
  exact spacesOk_append_left h1

theorem nlOk_strip {s : Str} (h : nlOk s) : nlOk (strip s) := by
  have h1 : nlOk (s.dropWhile isWs) := nlOk_dropWhile _ h
  rw [← strip_append_eq s] at h1
  exact nlOk_append_left h1

theorem takeWhile_ws_decomp (rest : Str) :
    rest.takeWhile isWs =
      rest.takeWhile isSpTab ++ (rest.dropWhile isSpTab).takeWhile isWs := by
  induction rest with
  | nil => rfl
  | cons d r ih =>
    by_cases hd : isSpTab d
    · simp only [List.takeWhile_cons, List.dropWhile_cons, hd, if_true,
        isWs_of_isSpTab hd, List.cons_append]
      rw [ih]
    · simp [List.takeWhile_cons, List.dropWhile_cons, hd]

theorem nl_not_spTab_mem {w : Str} (hall : ∀ c ∈ w, isSpTab c = true) :
    '\n' ∉ w := by
  intro hmem
  have := hall _ hmem
  simp [isSpTab] at this

theorem nl_mem_takeWhile_collapseSpaces (t : Str) :
    '\n' ∈ (collapseSpaces t).takeWhile isWs ↔ '\n' ∈ t.takeWhile isWs := by
  induction t using collapseSpaces_ind with
  | case1 => simp [collapseSpaces_nil, collapseSpaces_cons]
  | case2 c rest hc ih =>
    simp only [collapseSpaces_cons, if_pos hc]
    have hw : isWs ' ' = true := by decide
    have hwc : isWs c = true := isWs_of_isSpTab hc
    simp only [List.takeWhile_cons, hw, hwc, if_true, List.mem_cons]
    have hdec := takeWhile_ws_decomp rest
    constructor
    · rintro (habs | hmem)
      · exact absurd habs (by decide)
      · right
        rw [hdec]
        exact List.mem_append_right _ (ih.mp hmem)
    · rintro (habs | hmem)
      · rw [← habs] at hc
        simp [isSpTab] at hc
      · right
        rw [hdec] at hmem
        rcases List.mem_append.mp hmem with hmem | hmem
        · exact absurd hmem
            (nl_not_spTab_mem (fun d hd => List.mem_takeWhile_imp hd))
        · exact ih.mpr hmem
  | case3 c rest hc ih =>
    simp only [collapseSpaces_cons, if_neg hc]
    by_cases hw : isWs c
    · simp only [List.takeWhile_cons, hw, if_true, List.mem_cons]
      exact or_congr Iff.rfl ih
    · simp [List.takeWhile_cons, hw]

theorem noHyphBreak_collapseSpaces {s : Str} (h : noHyphBreak s) :
    noHyphBreak (collapseSpaces s) := by
  induction s using collapseSpaces_ind with
  | case1 => simpa [collapseSpaces] using h
  | case2 c rest hc ih =>
    simp only [collapseSpaces_cons, if_pos hc]
    exact ⟨fun hx => absurd hx (by decide),
      ih (noHyphBreak_dropWhile _ h.2)⟩
  | case3 c rest hc ih =>
    simp only [collapseSpaces_cons, if_neg hc]
    refine ⟨fun hdash => ?_, ih h.2⟩
    rw [nl_mem_takeWhile_collapseSpaces]
    exact h.1 hdash

theorem nl_mem_takeWhile_collapseNL (t : Str) :
    '\n' ∈ (collapseNL t).takeWhile isWs ↔ '\n' ∈ t.takeWhile isWs := by
  induction t using collapseNL_ind with
  | case1 => simp [collapseNL_nil, collapseNL_cons]
  | case2 rest ih =>
    simp only [collapseNL_cons, if_pos rfl]
    constructor
    · intro _
      simp [List.takeWhile_cons, show isWs '\n' = true by decide]
    · intro _
      have h1 : 1 ≤ min ((rest.takeWhile (fun d => d = '\n')).length + 1) 2 :=
        le_min (by omega) (by omega)
      rcases Nat.exists_eq_add_of_le h1 with ⟨k, hk⟩
      rw [hk]
      simp [List.replicate_succ, List.takeWhile_cons,
        show isWs '\n' = true by decide]
  | case3 c rest hc ih =>
    simp only [collapseNL_cons, if_neg hc]
    by_cases hw : isWs c
    · simp only [List.takeWhile_cons, hw, if_true, List.mem_cons]
      exact or_congr Iff.rfl ih
    · simp [List.takeWhile_cons, hw]

theorem noHyphBreak_replicate_nl (k : Nat) {z : Str} (h : noHyphBreak z) :
    noHyphBreak (List.replicate k '\n' ++ z) := by
  induction k with
  | zero => simpa using h
  | succ m ih =>
    simp only [List.replicate_succ, List.cons_append]
    exact ⟨fun hx => absurd hx (by decide), ih⟩

theorem noHyphBreak_collapseNL {s : Str} (h : noHyphBreak s) :
    noHyphBreak (collapseNL s) := by
  induction s using collapseNL_ind with
  | case1 => simpa [collapseNL] using h
  | case2 rest ih =>
    simp only [collapseNL_cons, if_pos rfl]
    exact noHyphBreak_replicate_nl _ (ih (noHyphBreak_dropWhile _ h.2))
  | case3 c rest hc ih =>
    simp only [collapseNL_cons, if_neg hc]
    refine ⟨fun hdash => ?_, ih h.2⟩
    rw [nl_mem_takeWhile_collapseNL]
    exact h.1 hdash

theorem mem_fixHyphen {c : Char} {s : Str} : c ∈ fixHyphen s → c ∈ s := by
  induction s using fixHyphen_ind with
  | case1 => intro h; simp [fixHyphen_nil, fixHyphen_cons] at h
  | case2 d rest hc ih =>
    intro h
    rw [fixHyphen_cons, if_pos hc] at h
    exact List.mem_cons_of_mem _ (List.dropWhile_subset _ (ih h))
  | case3 d rest hc ih =>
    intro h
    rw [fixHyphen_cons, if_neg hc] at h
    rcases List.mem_cons.mp h with rfl | h
    · exact List.mem_cons_self _ _
    · exact List.mem_cons_of_mem _ (ih h)

theorem mem_collapseSpaces {c : Char} {s : Str} :
    c ∈ collapseSpaces s → c ∈ s ∨ c = ' ' := by
  induction s using collapseSpaces_ind with
  | case1 => intro h; simp [collapseSpaces_nil, collapseSpaces_cons] at h
  | case2 d rest hc ih =>
    intro h
    rw [collapseSpaces_cons, if_pos hc] at h
    rcases List.mem_cons.mp h with rfl | h
    · exact Or.inr rfl
    · rcases ih h with h | h
      · exact Or.inl (List.mem_cons_of_mem _ (List.dropWhile_subset _ h))
      · exact Or.inr h
  | case3 d rest hc ih =>
    intro h
    rw [collapseSpaces_cons, if_neg hc] at h
    rcases List.mem_cons.mp h with rfl | h
    · exact Or.inl (List.mem_cons_self _ _)
    · rcases ih h with h | h
      · exact Or.inl (List.mem_cons_of_mem _ h)
      · exact Or.inr h

theorem mem_collapseNL {c : Char} {s : Str} :
    c ∈ collapseNL s → c ∈ s ∨ c = '\n' := by
  induction s using collapseNL_ind with
  | case1 => intro h; simp [collapseNL_nil, collapseNL_cons] at h
  | case2 rest ih =>
    intro h
    rw [collapseNL_cons, if_pos rfl] at h
    rcases List.mem_append.mp h with h | h
    · exact Or.inr (List.eq_of_mem_replicate h)
    · rcases ih h with h | h
      · exact Or.inl (List.mem_cons_of_mem _ (List.dropWhile_subset _ h))
      · exact Or.inr h
  | case3 d rest hc ih =>
    intro h
    rw [collapseNL_cons, if_neg hc] at h
    rcases List.mem_cons.mp h with rfl | h
    · exact Or.inl (List.mem_cons_self _ _)
    · rcases ih h with h | h
      · exact Or.inl (List.mem_cons_of_mem _ h)
      · exact Or.inr h

theorem normalizeText_no_cr (s : Str) : '\r' ∉ normalizeText s := by
  intro hmem
  unfold normalizeText at hmem
  have h1 := mem_strip hmem
  rcases mem_collapseNL h1 with h2 | h2
  · rcases mem_collapseSpaces h2 with h3 | h3
    · exact fixCR_no_cr s (mem_fixHyphen h3)
    · exact absurd h3 (by decide)
  · exact absurd h2 (by decide)

/-- Claim C3 core lemma: the per-text normalizer is idempotent. -/
theorem normalizeText_idem (s : Str) :
    normalizeText (normalizeText s) = normalizeText s := by
  have hnh : noHyphBreak (normalizeText s) :=
    noHyphBreak_strip (noHyphBreak_collapseNL (noHyphBreak_collapseSpaces
      (noHyphBreak_fixHyphen (fixCR s))))
  have hsp : spacesOk (normalizeText s) :=
    spacesOk_strip (spacesOk_collapseNL (spacesOk_collapseSpaces _))
  have hnl : nlOk (normalizeText s) :=
    nlOk_strip (nlOk_collapseNL _)
  conv_lhs => rw [normalizeText]
  rw [fixCR_eq_self (normalizeText_no_cr s), fixHyphen_eq_self hnh,
    collapseSpaces_eq_self hsp, collapseNL_eq_self hnl]
  unfold normalizeText
  exact strip_strip _

/-- Claim C3: `_normalize_blocks` is idempotent on block lists. -/
theorem normalizeBlocks_idem (bs : List TextBlock) :
    normalizeBlocks (normalizeBlocks bs) = normalizeBlocks bs := by
  induction bs with
  | nil => rfl
  | cons b rest ih =>
    by_cases hdrop : normalizeText b.text = [] ∨
        isPageNumber (normalizeText b.text) = true
    · simp only [normalizeBlocks, if_pos hdrop]
      exact ih
    · simp only [normalizeBlocks, if_neg hdrop]
      have hpres : normalizeText (normalizeText b.text) =
          normalizeText b.text := normalizeText_idem b.text
      simp only [normalizeBlocks, hpres, if_neg hdrop]
      rw [ih]

theorem zipWith_snd {α β : Type} :
    ∀ (as : List α) (bs : List β), as.length = bs.length →
      List.zipWith (fun _ b => b) as bs = bs := by
  intro as
  induction as with
  | nil => intro bs h; cases bs with
    | nil => rfl
    | cons b bs => simp at h
  | cons a as ih =>
    intro bs h
    cases bs with
    | nil => simp at h
    | cons b bs =>
      simp only [List.zipWith_cons_cons, List.cons.injEq, true_and]
      exact ih bs (by simpa using h)

theorem reindex_length (cs : List ChunkResult) :
    (reindex cs).length = cs.length := by
  simp [reindex]

theorem reindex_indices (cs : List ChunkResult) :
    (reindex cs).map (fun c => c.chunkIndex) =
      List.range (reindex cs).length := by
  rw [reindex_length]
  unfold reindex
  rw [List.map_zipWith]
  exact zipWith_snd cs (List.range cs.length) (by simp)

/-- Claim C2: the `chunk_index` values of `HybridChunker.chunk`'s
output, in output order, are exactly `0, 1, ..., N-1`
(`List.range N`): unique, dense and strictly increasing. -/
theorem chunk_chunkIndex_dense (cfg : ChunkConfig) (blocks : List TextBlock) :
    (chunk cfg blocks).map (fun c => c.chunkIndex) =
      List.range (chunk cfg blocks).length := by
  by_cases h : blocks = []
  · simp [chunk, h]
  · simp only [chunk, if_neg h]
    exact reindex_indices _

theorem unitsGo_length (sbs : List TextBlock) (stack : List Str) :
    (unitsGo sbs stack).length = sbs.length := by
  induction sbs generalizing stack with
  | nil => rfl
  | cons sb rest ih => simp [unitsGo, ih]

theorem unitsGo_map_path (sbs : List TextBlock) (stack : List Str) :
    (unitsGo sbs stack).map (fun u => u.sectionPath) =
      (List.range sbs.length).map
        (fun i => (sbs.take (i + 1)).foldl sectionStackStep stack) := by
  induction sbs generalizing stack with
  | nil => rfl
  | cons sb rest ih =>
    simp only [unitsGo, List.map_cons, List.length_cons,
      List.range_succ_eq_map, List.map_map]
    congr 1
    rw [ih (sectionStackStep stack sb)]
    apply List.map_congr_left
    intro i _
    simp [List.take_succ_cons, List.foldl_cons, Function.comp]

theorem unitsGo_append (l1 l2 : List TextBlock) (stack : List Str) :
    unitsGo (l1 ++ l2) stack =
      unitsGo l1 stack ++ unitsGo l2 (l1.foldl sectionStackStep stack) := by
  induction l1 generalizing stack with
  | nil => rfl
  | cons sb rest ih =>
    simp only [List.cons_append, unitsGo, List.foldl_cons, List.append_eq]
    rw [ih]

/-- Claim C7: the section tracker has truncate-then-append semantics
(a heading at derived level L truncates the stack to length L and
appends its first line), every unit's `section_path` is the snapshot
of the stack fold over the sub-block prefix ending at that unit, and
extending the input never changes the units already produced. -/
theorem sectionTracker_spec :
    (∀ stack sb, sectionStackStep stack sb =
       if classifyKind sb.text = UKind.heading
       then stack.take (headingLevel (firstLineOf sb.text)) ++
         [firstLineOf sb.text]
       else stack) ∧
    (∀ blocks, (blocksToUnits blocks).map (fun u => u.sectionPath) =
       (List.range (subBlocksOf blocks).length).map
         (fun i => ((subBlocksOf blocks).take (i + 1)).foldl
           sectionStackStep [])) ∧
    (∀ l1 l2 stack, (unitsGo (l1 ++ l2) stack).take l1.length =
       unitsGo l1 stack) := by
  refine ⟨fun stack sb => rfl, fun blocks => ?_, fun l1 l2 stack => ?_⟩
  · exact unitsGo_map_path _ _
  · rw [unitsGo_append, ← unitsGo_length l1 stack, List.take_left]

theorem dedupCands_not_mem_seen {line : Str} :
    ∀ (bs : List TextBlock) (seen : List Str), line ∈ seen →
      line ∉ dedupCands bs seen := by
  intro bs
  induction bs with
  | nil => intro seen h; simp [dedupCands]
  | cons b rest ih =>
    intro seen h
    simp only [dedupCands]
    by_cases hc : (normCmp b.text).length < 100 ∧ normCmp b.text ∉ seen
    · rw [if_pos hc]
      intro hmem
      rcases List.mem_cons.mp hmem with rfl | hmem
      · exact hc.2 h
      · exact ih _ (List.mem_cons_of_mem _ h) hmem
    · rw [if_neg hc]
      exact ih _ h

theorem dedupCands_nodup :
    ∀ (bs : List TextBlock) (seen : List Str), (dedupCands bs seen).Nodup := by
  intro bs
  induction bs with
  | nil => intro seen; simp [dedupCands]
  | cons b rest ih =>
    intro seen
    simp only [dedupCands]
    by_cases hc : (normCmp b.text).length < 100 ∧ normCmp b.text ∉ seen
    · rw [if_pos hc]
      exact List.nodup_cons.mpr
        ⟨dedupCands_not_mem_seen _ _ (List.mem_cons_self _ _), ih _⟩
    · rw [if_neg hc]
      exact ih _

theorem count_eq_ite_of_nodup {l : List Str} (line : Str) (h : l.Nodup) :
    l.count line = if line ∈ l then 1 else 0 := by
  induction l with
  | nil => simp
  | cons a rest ih =>
    have hrest := (List.nodup_cons.mp h).2
    have hna : a ∉ rest := (List.nodup_cons.mp h).1
    rw [List.count_cons, ih hrest]
    by_cases heq : line = a
    · subst heq
      have h0 : ¬ line ∈ rest := hna
      simp [h0]
    · simp only [List.mem_cons]
      have hne : (line == a) = false := by
        simp [heq]
      simp [hne, heq]
      exact fun hax => heq hax.symm

theorem foldl_add_count (line : Str) :
    ∀ (ls : List (List Str)) (a : Nat),
      ls.foldl (fun acc l => acc + l.count line) a =
        a + (ls.map (fun l => l.count line)).sum := by
  intro ls
  induction ls with
  | nil => intro a; simp
  | cons l rest ih =>
    intro a
    simp only [List.foldl_cons, List.map_cons, List.sum_cons]
    rw [ih]
    omega

theorem counterCount_eq_countP (blocks : List TextBlock) (line : Str) :
    counterCount blocks line =
      (distinctPages blocks).countP
        (fun p => (candLinesOfPage blocks p).contains line) := by
  unfold counterCount
  rw [foldl_add_count, Nat.zero_add]
  induction distinctPages blocks with
  | nil => rfl
  | cons p rest ih =>
    simp only [List.map_cons, List.sum_cons, List.countP_cons]
    rw [ih, count_eq_ite_of_nodup line
      (show (candLinesOfPage blocks p).Nodup from dedupCands_nodup _ _)]
    by_cases hm : line ∈ candLinesOfPage blocks p
    · simp [hm, List.elem_iff.mpr hm, List.contains, Nat.add_comm]
    · have hnc : (candLinesOfPage blocks p).contains line = false := by
        rw [← Bool.not_eq_true]
        intro hcon
        exact hm (List.elem_iff.mp hcon)
      simp [hm, hnc]

/-- Claim C6: with at least 3 distinct pages, exactly the blocks whose
comparison key is a boundary candidate (at most once per page) on at
least 60% of the pages are removed; with fewer than 3 distinct pages
the block list is returned unchanged. -/
theorem removeHeadersFooters_spec (blocks : List TextBlock) :
    ((distinctPages blocks).length < 3 →
      removeHeadersFooters blocks = blocks) ∧
    (3 ≤ (distinctPages blocks).length →
      removeHeadersFooters blocks = blocks.filter (fun b =>
        decide (5 * ((distinctPages blocks).countP
            (fun p => (candLinesOfPage blocks p).contains (normCmp b.text))) <
          3 * (distinctPages blocks).length))) := by
  constructor
  · intro h
    unfold removeHeadersFooters
    by_cases hb : blocks = []
    · rw [if_pos hb]
    · rw [if_neg hb, if_pos h]
  · intro h
    unfold removeHeadersFooters
    have hb : blocks ≠ [] := by
      intro hb
      rw [hb] at h
      simp [distinctPages] at h
    rw [if_neg hb, if_neg (by omega)]
    apply List.filter_congr
    intro b _
    rw [counterCount_eq_countP]

/-- Witness for C6 on a concrete 3-page document with a repeated
boundary line. -/
theorem removeHeadersFooters_spec_witness :
    3 ≤ (distinctPages hfBlocks).length ∧
    removeHeadersFooters hfBlocks = hfBlocks.filter (fun b =>
      decide (5 * ((distinctPages hfBlocks).countP
          (fun p => (candLinesOfPage hfBlocks p).contains (normCmp b.text))) <
        3 * (distinctPages hfBlocks).length)) :=
  ⟨by decide, (removeHeadersFooters_spec hfBlocks).2 (by decide)⟩

/-- Counterexample to C9 as stated: with `overlap_tokens = 100` the
first chunk's text ("aaaa", 4 chars) is not longer than
`overlap_chars = 360`, so nothing is prepended to the second chunk —
its text stays exactly "ГЛАВА 2", without any truncation marker. -/
theorem applyOverlap_cex :
    (chunk ovCfg ovBlocks).map (fun c => c.text) =
      ["aaaa".toList, "ГЛАВА 2".toList] ∧
    ("ГЛАВА 2".toList).take 3 ≠ "...".toList := by
  constructor
  · decide
  · decide

theorem overlapStep_meta (cfg : ChunkConfig) (p : Str) (c : ChunkResult) :
    (overlapStep cfg p c).chunkIndex = c.chunkIndex ∧
    (overlapStep cfg p c).pageStart = c.pageStart ∧
    (overlapStep cfg p c).pageEnd = c.pageEnd ∧
    (overlapStep cfg p c).sectionPath = c.sectionPath := by
  unfold overlapStep
  by_cases h : cfg.overlapTokens * 18 / 5 < p.length
  · rw [if_pos h]
    exact ⟨rfl, rfl, rfl, rfl⟩
  · rw [if_neg h]
    exact ⟨rfl, rfl, rfl, rfl⟩

theorem applyOverlapGo_meta (cfg : ChunkConfig) :
    ∀ (l : List ChunkResult) (p : Str),
      (applyOverlapGo cfg p l).map
        (fun c => (c.chunkIndex, c.pageStart, c.pageEnd, c.sectionPath)) =
      l.map (fun c => (c.chunkIndex, c.pageStart, c.pageEnd, c.sectionPath)) := by
  intro l
  induction l with
  | nil => intro p; rfl
  | cons c rest ih =>
    intro p
    simp only [applyOverlapGo, List.map_cons]
    have hm := overlapStep_meta cfg p c
    rw [ih]
    simp [hm.1, hm.2.1, hm.2.2.1, hm.2.2.2]

theorem applyOverlapGo_chain (cfg : ChunkConfig) :
    ∀ (l : List ChunkResult) (pText : Str) (i : Nat) (prev c : ChunkResult),
      (applyOverlapGo cfg pText l).get? i = some prev →
      l.get? (i + 1) = some c →
      (applyOverlapGo cfg pText l).get? (i + 1) =
        some (overlapStep cfg prev.text c) := by
  intro l
  induction l with
  | nil => intro pText i prev c h1 h2; simp [applyOverlapGo] at h1
  | cons c0 rest ih =>
    intro pText i prev c h1 h2
    cases i with
    | zero =>
      simp only [applyOverlapGo, List.get?] at h1 h2 ⊢
      cases rest with
      | nil => simp at h2
      | cons c1 r2 =>
        simp only [List.get?] at h2
        cases h1
        cases h2
        rfl
    | succ j =>
      simp only [applyOverlapGo, List.get?] at h1 h2 ⊢
      exact ih _ j prev c h1 h2

/-- Claim C9 (amended): with `overlap_tokens > 0`, the overlap
injector keeps every chunk's index, page range and section path (and
the number and order of chunks); the first chunk is unchanged; each
later chunk is `overlapStep` of its predecessor's (already extended)
text: if that text is longer than `overlap_chars` the trailing slice,
trimmed to a word boundary, is prepended with the "..." marker,
otherwise the chunk is left unchanged. -/
theorem applyOverlap_spec (cfg : ChunkConfig) (hov : 0 < cfg.overlapTokens)
    (cs : List ChunkResult) :
    ((applyOverlap cfg cs).map
        (fun c => (c.chunkIndex, c.pageStart, c.pageEnd, c.sectionPath)) =
      cs.map (fun c => (c.chunkIndex, c.pageStart, c.pageEnd, c.sectionPath))) ∧
    ((applyOverlap cfg cs).get? 0 = cs.get? 0) ∧
    (∀ i prev c, (applyOverlap cfg cs).get? i = some prev →
      cs.get? (i + 1) = some c →
      (applyOverlap cfg cs).get? (i + 1) =
        some (overlapStep cfg prev.text c)) ∧
    (∀ p c, (p.length ≤ cfg.overlapTokens * 18 / 5 →
        overlapStep cfg p c = c) ∧
      (cfg.overlapTokens * 18 / 5 < p.length →
        (overlapStep cfg p c).text = '.' :: '.' :: '.' ::
          (overlapTail (lastN (cfg.overlapTokens * 18 / 5) p) ++
            '\n' :: '\n' :: c.text))) := by
  have hne : cfg.overlapTokens ≠ 0 := Nat.pos_iff_ne_zero.mp hov
  refine ⟨?_, ?_, ?_, ?_⟩
  · match cs with
    | [] => rfl
    | [c] => rfl
    | c0 :: c1 :: rest =>
      simp only [applyOverlap, if_neg hne, List.map_cons]
      rw [applyOverlapGo_meta]
      simp
  · match cs with
    | [] => rfl
    | [c] => rfl
    | c0 :: c1 :: rest =>
      simp [applyOverlap, if_neg hne]
  · intro i prev c h1 h2
    match cs, h2 with
    | c0 :: c1 :: rest, h2 =>
      simp only [applyOverlap, if_neg hne] at h1 ⊢
      cases i with
      | zero =>
        simp only [List.get?] at h1 h2 ⊢
        cases h1
        cases h2
        rfl
      | succ j =>
        simp only [List.get?] at h1 h2 ⊢
        exact applyOverlapGo_chain cfg _ _ j prev c h1 h2
  · intro p c
    constructor
    · intro hle
      unfold overlapStep
      rw [if_neg (by omega)]
    · intro hlt
      unfold overlapStep
      rw [if_pos hlt]

/-- Witness for C9 (amended) at the concrete overlap configuration. -/
theorem applyOverlap_spec_witness :
    0 < ovCfg.overlapTokens ∧
    ((applyOverlap ovCfg (postprocessChunks ovCfg
        (packUnits ovCfg (blocksToUnits ovBlocks)))).map
        (fun c => (c.chunkIndex, c.pageStart, c.pageEnd, c.sectionPath)) =
      (postprocessChunks ovCfg (packUnits ovCfg (blocksToUnits ovBlocks))).map
        (fun c => (c.chunkIndex, c.pageStart, c.pageEnd, c.sectionPath))) :=
  ⟨by decide, (applyOverlap_spec ovCfg (by decide) _).1⟩

/-! ### Claim C4: headings begin chunks -/

/-- Counterexample to C4 as stated: the unit "ВВЕДЕНИЕ" is classified
as a heading (weak heuristic), is not the first unit, yet the final
output is a single chunk holding the heading mid-chunk — the
postprocessor merged it, since its merge guard checks only the three
strong heading patterns. -/
theorem heading_absorbed_cex :
    classifyKind ("ВВЕДЕНИЕ".toList) = UKind.heading ∧
    (blocksToUnits (removeHeadersFooters (normalizeBlocks wkBlocks))).map
      (fun u => u.kind) = [UKind.paragraph, UKind.heading] ∧
    (chunk defaultConfig wkBlocks).map (fun c => c.text) =
      ["Обычный абзац текста достаточно длинный для теста.".toList ++
        '\n' :: '\n' :: "ВВЕДЕНИЕ".toList] := by
  refine ⟨by decide, by decide, by decide⟩

theorem ppStep_fst_grows (cfg : ChunkConfig) (st : List ChunkResult × ChunkResult)
    (c : ChunkResult) : ∃ suf, (ppStep cfg st c).1 = st.1 ++ suf := by
  unfold ppStep
  by_cases h : estimateTokens c.text < cfg.minTokens ∧
      estimateTokens (st.2.text ++ '\n' :: '\n' :: c.text) ≤ cfg.maxTokens ∧
      ¬ strongHeading (firstLineOf c.text) = true
  · exact ⟨[], by rw [if_pos h]; simp⟩
  · exact ⟨[st.2], by rw [if_neg h]⟩

theorem ppFold_keeps (cfg : ChunkConfig) (t : Str) :
    ∀ (l : List ChunkResult) (st : List ChunkResult × ChunkResult),
      ((∃ x ∈ st.1, t <+: x.text) ∨ t <+: st.2.text) →
      (∃ x ∈ (l.foldl (ppStep cfg) st).1, t <+: x.text) ∨
        t <+: (l.foldl (ppStep cfg) st).2.text := by
  intro l
  induction l with
  | nil => intro st h; exact h
  | cons c rest ih =>
    intro st h
    rw [List.foldl_cons]
    apply ih
    unfold ppStep
    by_cases hc : estimateTokens c.text < cfg.minTokens ∧
        estimateTokens (st.2.text ++ '\n' :: '\n' :: c.text) ≤ cfg.maxTokens ∧
        ¬ strongHeading (firstLineOf c.text) = true
    · rw [if_pos hc]
      rcases h with h | h
      · exact Or.inl h
      · right
        show t <+: (mergeChunks st.2 c).text
        unfold mergeChunks
        exact h.trans (List.prefix_append _ _)
    · rw [if_neg hc]
      rcases h with ⟨x, hx, hpre⟩ | h
      · exact Or.inl ⟨x, List.mem_append_left _ hx, hpre⟩
      · exact Or.inl ⟨st.2, List.mem_append_right _ (List.mem_singleton.mpr rfl), h⟩

theorem ppFold_strong (cfg : ChunkConfig) :
    ∀ (l : List ChunkResult) (st : List ChunkResult × ChunkResult)
      (c : ChunkResult), c ∈ l → strongHeading (firstLineOf c.text) = true →
      (∃ x ∈ (l.foldl (ppStep cfg) st).1, c.text <+: x.text) ∨
        c.text <+: (l.foldl (ppStep cfg) st).2.text := by
  intro l
  induction l with
  | nil => intro st c hc; simp at hc
  | cons c0 rest ih =>
    intro st c hc hstrong
    rcases List.mem_cons.mp hc with rfl | hc
    · rw [List.foldl_cons]
      apply ppFold_keeps
      have : ppStep cfg st c = (st.1 ++ [st.2], c) := by
        unfold ppStep
        rw [if_neg (by
          rintro ⟨h1, h2, h3⟩
          exact h3 hstrong)]
      rw [this]
      exact Or.inr (List.prefix_refl _)
    · rw [List.foldl_cons]
      exact ih _ c hc hstrong

/-- Claim C4 (amended): in the packer, a non-oversized heading unit
arriving at a non-empty buffer flushes it and starts the new buffer
with exactly the heading's text; and the postprocessor never destroys
a chunk that starts with one of the three strong heading patterns —
that chunk survives as a prefix of some output chunk. Weak headings
(the uppercase-line heuristic) are not protected by the postprocessor
and can be absorbed mid-chunk. -/
theorem heading_begins_chunk (cfg : ChunkConfig) :
    (∀ st u, u.kind = UKind.heading →
      estimateTokens u.text ≤ cfg.maxTokens → st.curTexts ≠ [] →
      (packStep cfg st u).curTexts = [u.text] ∧
      (packStep cfg st u).chunks = (flushState st).chunks) ∧
    (∀ cs c, c ∈ cs → strongHeading (firstLineOf c.text) = true →
      ∃ c2 ∈ postprocessChunks cfg cs, c.text <+: c2.text) := by
  constructor
  · intro st u hk hle hne
    have hnotover : ¬ cfg.maxTokens < estimateTokens u.text := Nat.not_lt.mpr hle
    have h1 : u.kind = UKind.heading ∧ st.curTexts ≠ [] := ⟨hk, hne⟩
    simp only [packStep, if_pos h1]
    split_ifs <;> exact ⟨rfl, rfl⟩
  · intro cs c hc hstrong
    match cs, hc with
    | c0 :: rest, hc =>
      unfold postprocessChunks
      rcases List.mem_cons.mp hc with rfl | hc
      · have h := ppFold_keeps cfg c.text rest ([], c)
          (Or.inr (List.prefix_refl _))
        rcases h with ⟨x, hx, hpre⟩ | h
        · exact ⟨x, List.mem_append_left _ hx, hpre⟩
        · exact ⟨_, List.mem_append_right _ (List.mem_singleton.mpr rfl), h⟩
      · have h := ppFold_strong cfg rest ([], c0) c hc hstrong
        rcases h with ⟨x, hx, hpre⟩ | h
        · exact ⟨x, List.mem_append_left _ hx, hpre⟩
        · exact ⟨_, List.mem_append_right _ (List.mem_singleton.mpr rfl), h⟩

/-- Witness for C4 (amended): a strong-heading chunk survives the
postprocessor on the concrete two-chunk example, and a heading unit
restarts a concrete non-empty buffer. -/
theorem heading_begins_chunk_witness :
    (∃ c2 ∈ postprocessChunks defaultConfig
        (packUnits defaultConfig (blocksToUnits ovBlocks)),
      ("ГЛАВА 2".toList : Str) <+: c2.text) ∧
    (packStep defaultConfig
        { chunks := [], curTexts := ["абзац".toList], curTokens := 1,
          pageStart := 1, pageEnd := 1, path := [] }
        { text := "ГЛАВА 2".toList, kind := UKind.heading, pageStart := 1,
          pageEnd := 1, order := 1, sectionPath := [] }).curTexts =
      ["ГЛАВА 2".toList] := by
  constructor
  · exact (heading_begins_chunk defaultConfig).2
      (packUnits defaultConfig (blocksToUnits ovBlocks))
      { chunkIndex := 0, text := "ГЛАВА 2".toList, pageStart := 1,
        pageEnd := 1, sectionPath := ["ГЛАВА 2".toList] }
      (by decide) (by decide)
  · exact ((heading_begins_chunk defaultConfig).1 _ _ (by decide) (by decide)
      (by decide)).1

/-! ### Claim C5: oversized-unit handling -/

/-- Claim C5: for a unit whose token estimate exceeds `max_tokens`,
the packer flushes any existing buffer and then feeds the pieces of
`_split_oversized` one at a time from an empty buffer; a single
unsplittable sentence run is hard-sliced by characters; and in the
piece loop, whenever adding the next piece would exceed `max_tokens`
and the buffer holds at least `min_tokens` (with `min_tokens ≥ 1` and
the loop invariant that a positive token count means a non-empty
buffer), the buffer is flushed before the piece is added. -/
theorem oversized_unit_spec (cfg : ChunkConfig) :
    (∀ st u, cfg.maxTokens < estimateTokens u.text →
      ∃ st', packStep cfg st u =
          (splitOversized cfg u.text).foldl (feedPiece cfg u) st' ∧
        st'.curTexts = [] ∧
        (st.curTexts ≠ [] →
          st'.chunks = (flushState (if cfg.maxTokens <
              st.curTokens + estimateTokens u.text ∧
              cfg.minTokens ≤ st.curTokens
            then resetMeta u (flushState st) else st)).chunks)) ∧
    (∀ text, (splitSentences text).length ≤ 1 →
      cfg.maxTokens < estimateTokens text →
      splitOversized cfg text = hardSlices (maxCharsOf cfg.maxTokens) text) ∧
    (∀ st u piece, cfg.maxTokens < st.curTokens + estimateTokens piece →
      cfg.minTokens ≤ st.curTokens → 1 ≤ cfg.minTokens →
      (st.curTokens ≠ 0 → st.curTexts ≠ []) →
      (feedPiece cfg u st piece).curTexts = [piece] ∧
      (feedPiece cfg u st piece).chunks = (flushState st).chunks) := by
  refine ⟨?_, ?_, ?_⟩
  · intro st u hover
    simp only [packStep]
    set s1 := if u.kind = UKind.heading ∧ st.curTexts ≠ []
      then resetMeta u (flushState st) else st with hs1
    set s2 := if cfg.maxTokens < s1.curTokens + estimateTokens u.text ∧
        s1.curTexts ≠ [] ∧ cfg.minTokens ≤ s1.curTokens
      then resetMeta u (flushState s1) else s1 with hs2
    set s3 := if s2.curTexts ≠ [] then resetMeta u (flushState s2) else s2
      with hs3
    refine ⟨s3, ?_, ?_, ?_⟩
    · rw [if_pos hover]
    · rw [hs3, hs2, hs1]
      split_ifs <;> first | rfl | simp_all
    · intro hne
      rw [hs3, hs2, hs1]
      split_ifs <;> rfl
  · intro text h1 h2
    unfold splitOversized
    rw [if_pos ⟨h1, h2⟩]
  · intro st u piece hover hmin hone hinv
    have hne : st.curTexts ≠ [] := hinv (by omega)
    have hc : cfg.maxTokens < st.curTokens + estimateTokens piece ∧
        st.curTexts ≠ [] := ⟨hover, hne⟩
    simp only [feedPiece, if_pos hc]
    exact ⟨rfl, rfl⟩

/-- Witness for C5 at concrete state and piece values. -/
theorem oversized_unit_spec_witness :
    (∃ st', packStep c5Cfg c5St c5Unit =
        (splitOversized c5Cfg c5Unit.text).foldl (feedPiece c5Cfg c5Unit) st' ∧
      st'.curTexts = [] ∧
      (c5St.curTexts ≠ [] →
        st'.chunks = (flushState (if c5Cfg.maxTokens <
            c5St.curTokens + estimateTokens c5Unit.text ∧
            c5Cfg.minTokens ≤ c5St.curTokens
          then resetMeta c5Unit (flushState c5St) else c5St)).chunks)) ∧
    (feedPiece c5Cfg c5Unit2 c5St
        "очень длинный кусок текста тут".toList).curTexts =
      ["очень длинный кусок текста тут".toList] :=
  ⟨(oversized_unit_spec c5Cfg).1 c5St c5Unit (by decide),
   ((oversized_unit_spec c5Cfg).2.2 c5St c5Unit2
     "очень длинный кусок текста тут".toList (by decide) (by decide)
     (by decide) (by decide)).1⟩

/-! ### Claim C10: chunks never have empty or whitespace-only text -/

theorem hasNonWs_of_strip_ne {y : Str} (h : strip y ≠ []) :
    ∃ c ∈ strip y, isWs c = false := by
  cases hsp : strip y with
  | nil => exact absurd hsp h
  | cons x xs =>
    refine ⟨x, by simp, ?_⟩
    have h1 := strip_takeWhile_nil y
    rw [hsp, List.takeWhile_cons] at h1
    by_cases hx : isWs x
    · rw [if_pos hx] at h1
      exact absurd h1 (by simp)
    · simpa using hx

theorem flush_pres {st : PackState}
    (h : ∀ c ∈ st.chunks, ∃ ch ∈ c.text, isWs ch = false) :
    ∀ c ∈ (flushState st).chunks, ∃ ch ∈ c.text, isWs ch = false := by
  intro c hc
  simp only [flushState] at hc
  by_cases ht : (strip (joinNN st.curTexts)).isEmpty
  · rw [if_pos ht] at hc
    exact h c hc
  · rw [if_neg ht] at hc
    rcases List.mem_append.mp hc with hc | hc
    · exact h c hc
    · rcases List.mem_singleton.mp hc with rfl
      exact hasNonWs_of_strip_ne (by simpa using ht)

theorem feedPiece_pres (cfg : ChunkConfig) (u : TUnit) {st : PackState}
    (piece : Str) (h : ∀ c ∈ st.chunks, ∃ ch ∈ c.text, isWs ch = false) :
    ∀ c ∈ (feedPiece cfg u st piece).chunks,
      ∃ ch ∈ c.text, isWs ch = false := by
  simp only [feedPiece]
  split_ifs with hc
  · exact flush_pres h
  · exact h

theorem foldFeed_pres (cfg : ChunkConfig) (u : TUnit) :
    ∀ (pieces : List Str) (st : PackState),
      (∀ c ∈ st.chunks, ∃ ch ∈ c.text, isWs ch = false) →
      ∀ c ∈ (pieces.foldl (feedPiece cfg u) st).chunks,
        ∃ ch ∈ c.text, isWs ch = false := by
  intro pieces
  induction pieces with
  | nil => intro st h; exact h
  | cons p rest ih =>
    intro st h
    rw [List.foldl_cons]
    exact ih _ (feedPiece_pres cfg u p h)

theorem packStep_pres (cfg : ChunkConfig) {st : PackState} (u : TUnit)
    (h : ∀ c ∈ st.chunks, ∃ ch ∈ c.text, isWs ch = false) :
    ∀ c ∈ (packStep cfg st u).chunks, ∃ ch ∈ c.text, isWs ch = false := by
  simp only [packStep]
  set s1 := if u.kind = UKind.heading ∧ st.curTexts ≠ []
    then resetMeta u (flushState st) else st with hs1
  have h1 : ∀ c ∈ s1.chunks, ∃ ch ∈ c.text, isWs ch = false := by
    rw [hs1]
    split_ifs
    · exact flush_pres h
    · exact h
  set s2 := if cfg.maxTokens < s1.curTokens + estimateTokens u.text ∧
      s1.curTexts ≠ [] ∧ cfg.minTokens ≤ s1.curTokens
    then resetMeta u (flushState s1) else s1 with hs2
  have h2 : ∀ c ∈ s2.chunks, ∃ ch ∈ c.text, isWs ch = false := by
    rw [hs2]
    split_ifs
    · exact flush_pres h1
    · exact h1
  by_cases hov : cfg.maxTokens < estimateTokens u.text
  · rw [if_pos hov]
    set s3 := if s2.curTexts ≠ [] then resetMeta u (flushState s2) else s2
      with hs3
    have h3 : ∀ c ∈ s3.chunks, ∃ ch ∈ c.text, isWs ch = false := by
      rw [hs3]
      split_ifs
      · exact flush_pres h2
      · exact h2
    exact foldFeed_pres cfg u _ _ h3
  · rw [if_neg hov]
    set s3 := if cfg.targetTokens ≤ s2.curTokens ∧ s2.curTexts ≠ [] ∧
        (u.kind = UKind.heading ∨ u.kind = UKind.paragraph)
      then resetMeta u (flushState s2) else s2 with hs3
    have h3 : ∀ c ∈ s3.chunks, ∃ ch ∈ c.text, isWs ch = false := by
      rw [hs3]
      split_ifs
      · exact flush_pres h2
      · exact h2
    exact h3

theorem packFold_pres (cfg : ChunkConfig) :
    ∀ (l : List TUnit) (st : PackState),
      (∀ c ∈ st.chunks, ∃ ch ∈ c.text, isWs ch = false) →
      ∀ c ∈ (l.foldl (packStep cfg) st).chunks,
        ∃ ch ∈ c.text, isWs ch = false := by
  intro l
  induction l with
  | nil => intro st h; exact h
  | cons u rest ih =>
    intro st h
    rw [List.foldl_cons]
    exact ih _ (packStep_pres cfg u h)

theorem packUnits_pres (cfg : ChunkConfig) (us : List TUnit) :
    ∀ c ∈ packUnits cfg us, ∃ ch ∈ c.text, isWs ch = false := by
  cases us with
  | nil => intro c hc; simp [packUnits] at hc
  | cons u0 rest =>
    intro c hc
    simp only [packUnits] at hc
    exact flush_pres (packFold_pres cfg _ _ (by intro x hx; simp [initState] at hx)) c hc

theorem ppStep_pres (cfg : ChunkConfig)
    {st : List ChunkResult × ChunkResult} (c : ChunkResult)
    (h1 : ∀ x ∈ st.1, ∃ ch ∈ x.text, isWs ch = false)
    (h2 : ∃ ch ∈ st.2.text, isWs ch = false)
    (hcc : ∃ ch ∈ c.text, isWs ch = false) :
    (∀ x ∈ (ppStep cfg st c).1, ∃ ch ∈ x.text, isWs ch = false) ∧
      ∃ ch ∈ (ppStep cfg st c).2.text, isWs ch = false := by
  unfold ppStep
  split_ifs with hm
  · refine ⟨h1, ?_⟩
    rcases h2 with ⟨ch, hch, hw⟩
    exact ⟨ch, List.mem_append_left _ hch, hw⟩
  · refine ⟨?_, hcc⟩
    intro x hx
    rcases List.mem_append.mp hx with hx | hx
    · exact h1 x hx
    · rcases List.mem_singleton.mp hx with rfl
      exact h2

theorem postprocess_pres (cfg : ChunkConfig) (cs : List ChunkResult)
    (h : ∀ c ∈ cs, ∃ ch ∈ c.text, isWs ch = false) :
    ∀ c ∈ postprocessChunks cfg cs, ∃ ch ∈ c.text, isWs ch = false := by
  match cs with
  | [] => intro c hc; simp [postprocessChunks] at hc
  | c0 :: rest =>
    unfold postprocessChunks
    have key : ∀ (l : List ChunkResult) (st : List ChunkResult × ChunkResult),
        (∀ x ∈ st.1, ∃ ch ∈ x.text, isWs ch = false) →
        (∃ ch ∈ st.2.text, isWs ch = false) →
        (∀ x ∈ l, ∃ ch ∈ x.text, isWs ch = false) →
        (∀ x ∈ (l.foldl (ppStep cfg) st).1, ∃ ch ∈ x.text, isWs ch = false) ∧
          ∃ ch ∈ (l.foldl (ppStep cfg) st).2.text, isWs ch = false := by
      intro l
      induction l with
      | nil => intro st a b _; exact ⟨a, b⟩
      | cons x rest ih =>
        intro st a b hl
        rw [List.foldl_cons]
        have hx := hl x (List.mem_cons_self _ _)
        have step := ppStep_pres cfg x a b hx
        exact ih _ step.1 step.2 (fun y hy => hl y (List.mem_cons_of_mem _ hy))
    have hk := key rest ([], c0) (by intro x hx; simp at hx)
      (h c0 (List.mem_cons_self _ _))
      (fun y hy => h y (List.mem_cons_of_mem _ hy))
    intro c hc
    rcases List.mem_append.mp hc with hc | hc
    · exact hk.1 c hc
    · rcases List.mem_singleton.mp hc with rfl
      exact hk.2

theorem overlapStep_pres (cfg : ChunkConfig) (p : Str) {c : ChunkResult}
    (h : ∃ ch ∈ c.text, isWs ch = false) :
    ∃ ch ∈ (overlapStep cfg p c).text, isWs ch = false := by
  simp only [overlapStep]
  split_ifs with hl
  · rcases h with ⟨ch, hch, hw⟩
    refine ⟨ch, ?_, hw⟩
    simp only [List.mem_cons]
    right; right; right
    exact List.mem_append_right _ (by simp [hch])
  · exact h

theorem applyOverlap_pres (cfg : ChunkConfig) (cs : List ChunkResult)
    (h : ∀ c ∈ cs, ∃ ch ∈ c.text, isWs ch = false) :
    ∀ c ∈ applyOverlap cfg cs, ∃ ch ∈ c.text, isWs ch = false := by
  have goKey : ∀ (l : List ChunkResult) (p : Str),
      (∀ c ∈ l, ∃ ch ∈ c.text, isWs ch = false) →
      ∀ c ∈ applyOverlapGo cfg p l, ∃ ch ∈ c.text, isWs ch = false := by
    intro l
    induction l with
    | nil => intro p _ c hc; simp [applyOverlapGo] at hc
    | cons x rest ih =>
      intro p hl c hc
      simp only [applyOverlapGo] at hc
      rcases List.mem_cons.mp hc with rfl | hc
      · exact overlapStep_pres cfg p (hl x (List.mem_cons_self _ _))
      · exact ih _ (fun y hy => hl y (List.mem_cons_of_mem _ hy)) c hc
  match cs with
  | [] => intro c hc; simp [applyOverlap] at hc
  | [c0] =>
    intro c hc
    simp only [applyOverlap] at hc
    exact h c hc
  | c0 :: c1 :: rest =>
    intro c hc
    simp only [applyOverlap] at hc
    split_ifs at hc
    · exact h c hc
    · rcases List.mem_cons.mp hc with heq | hc
      · rw [heq]
        exact h c0 (List.mem_cons_self _ _)
      · exact goKey (c1 :: rest) c0.text
          (fun y hy => h y (List.mem_cons_of_mem _ hy)) c hc

theorem reindex_text (cs : List ChunkResult) :
    ∀ c2 ∈ reindex cs, ∃ c ∈ cs, c2.text = c.text := by
  unfold reindex
  generalize List.range cs.length = is
  induction cs generalizing is with
  | nil => intro c2 hc2; simp at hc2
  | cons c rest ih =>
    intro c2 hc2
    cases is with
    | nil => simp at hc2
    | cons i irest =>
      simp only [List.zipWith_cons_cons, List.mem_cons] at hc2
      rcases hc2 with rfl | hc2
      · exact ⟨c, List.mem_cons_self _ _, rfl⟩
      · rcases ih irest c2 hc2 with ⟨x, hx, he⟩
        exact ⟨x, List.mem_cons_of_mem _ hx, he⟩

/-- Claim C10: every chunk produced by `HybridChunker.chunk` contains
a non-whitespace character — no output chunk has empty or
whitespace-only text. -/
theorem chunk_text_nonempty (cfg : ChunkConfig) (blocks : List TextBlock) :
    ∀ c ∈ chunk cfg blocks, ∃ ch ∈ c.text, isWs ch = false := by
  intro c hc
  by_cases hb : blocks = []
  · simp [chunk, hb] at hc
  · simp only [chunk, if_neg hb] at hc
    rcases reindex_text _ c hc with ⟨c2, hc2, he⟩
    rw [he]
    by_cases hov : 0 < cfg.overlapTokens
    · rw [if_pos hov] at hc2
      exact applyOverlap_pres cfg _
        (postprocess_pres cfg _ (packUnits_pres cfg _)) c2 hc2
    · rw [if_neg hov] at hc2
      exact postprocess_pres cfg _ (packUnits_pres cfg _) c2 hc2

/-- Witness for C10 on a concrete one-block document. -/
theorem chunk_text_nonempty_witness :
    ∃ ch ∈ aChunk.text, isWs ch = false :=
  chunk_text_nonempty defaultConfig aBlocks aChunk (by decide)

/-! ### Claim C8: content preservation (modulo whitespace) -/

theorem nws_nil : nws ([] : Str) = [] := rfl

theorem nws_append (a b : Str) : nws (a ++ b) = nws a ++ nws b :=
  List.filter_append a b

theorem nws_all_ws {w : Str} (h : ∀ c ∈ w, isWs c = true) : nws w = [] := by
  unfold nws
  rw [List.filter_eq_nil_iff]
  intro c hc
  simp [h c hc]

theorem nws_cons_ws {c : Char} (rest : Str) (h : isWs c = true) :
    nws (c :: rest) = nws rest := by
  unfold nws
  rw [List.filter_cons_of_neg]
  simp [h]

theorem nws_strip (s : Str) : nws (strip s) = nws s := by
  have hW : ∀ c ∈ ((s.dropWhile isWs).reverse.takeWhile isWs).reverse,
      isWs c = true := by
    intro c hc
    rw [List.mem_reverse] at hc
    exact List.mem_takeWhile_imp hc
  have h2 : nws (s.dropWhile isWs) = nws (strip s) := by
    rw [← strip_append_eq s, nws_append, nws_all_ws hW, List.append_nil]
  have h3 : ∀ c ∈ s.takeWhile isWs, isWs c = true := by
    intro c hc
    exact List.mem_takeWhile_imp hc
  calc nws (strip s) = nws (s.dropWhile isWs) := h2.symm
    _ = nws (s.takeWhile isWs) ++ nws (s.dropWhile isWs) := by
        rw [nws_all_ws h3]
        simp
    _ = nws s := by
        rw [← nws_append, List.takeWhile_append_dropWhile]

theorem nws_joinNN (ts : List Str) : nws (joinNN ts) = nws ts.flatten := by
  induction ts with
  | nil => rfl
  | cons t rest ih =>
    cases rest with
    | nil => simp [joinNN]
    | cons t2 r2 =>
      show nws (t ++ '\n' :: '\n' :: joinNN (t2 :: r2)) = _
      rw [nws_append, nws_cons_ws _ (by decide), nws_cons_ws _ (by decide), ih]
      simp only [List.flatten_cons, nws_append]

theorem filter_nonempty_flatten (l : List Str) :
    (l.filter (fun p => !p.isEmpty)).flatten = l.flatten := by
  induction l with
  | nil => rfl
  | cons p rest ih =>
    by_cases hp : p.isEmpty
    · have hpn : p = [] := by
        cases p
        · rfl
        · simp at hp
      rw [List.filter_cons_of_neg (by simp [hp])]
      rw [ih, List.flatten_cons, hpn, List.nil_append]
    · rw [List.filter_cons_of_pos (by simp [hp])]
      simp only [List.flatten_cons, ih]

theorem nws_flatten_map_strip (l : List Str) :
    nws (l.map strip).flatten = nws l.flatten := by
  induction l with
  | nil => rfl
  | cons p rest ih =>
    simp only [List.map_cons, List.flatten_cons, nws_append, nws_strip, ih]

theorem splitParasGo_succ (f : Nat) (acc : Str) (c : Char) (rest : Str) :
    splitParasGo (f + 1) acc (c :: rest) =
      if c = '\n' ∧ '\n' ∈ rest.takeWhile isWs then
        acc.reverse :: splitParasGo f []
          (((rest.takeWhile isWs).reverse.takeWhile
              (fun d => !(d = '\n'))).reverse ++ rest.dropWhile isWs)
      else splitParasGo f (c :: acc) rest := rfl

theorem splitParasGo_nws :
    ∀ (fuel : Nat) (acc s : Str), s.length ≤ fuel →
      nws (splitParasGo fuel acc s).flatten = nws acc.reverse ++ nws s := by
  intro fuel
  induction fuel with
  | zero =>
    intro acc s hs
    have hnil : s = [] := List.eq_nil_of_length_eq_zero (Nat.le_zero.mp hs)
    subst hnil
    simp [splitParasGo, nws_nil]
  | succ f ih =>
    intro acc s hs
    cases s with
    | nil => simp [splitParasGo, nws_nil]
    | cons c rest =>
      have hr : rest.length ≤ f := by
        simp only [List.length_cons] at hs
        omega
      rw [splitParasGo_succ]
      by_cases hc : c = '\n' ∧ '\n' ∈ rest.takeWhile isWs
      · rw [if_pos hc]
        obtain ⟨hcn, _⟩ := hc
        subst hcn
        have hlen : (((rest.takeWhile isWs).reverse.takeWhile
            (fun d => !(d = '\n'))).reverse ++ rest.dropWhile isWs).length ≤ f := by
          have h1 : ((rest.takeWhile isWs).reverse.takeWhile
              (fun d => !(d = '\n'))).length ≤ (rest.takeWhile isWs).length := by
            calc ((rest.takeWhile isWs).reverse.takeWhile
                  (fun d => !(d = '\n'))).length
                ≤ (rest.takeWhile isWs).reverse.length :=
                  (List.takeWhile_sublist _).length_le
              _ = (rest.takeWhile isWs).length := List.length_reverse _
          have h2 : (rest.takeWhile isWs).length +
              (rest.dropWhile isWs).length = rest.length := by
            rw [← List.length_append, List.takeWhile_append_dropWhile]
          simp only [List.length_append, List.length_reverse]
          omega
        rw [List.flatten_cons, nws_append, ih _ _ hlen]
        have htw : ∀ d ∈ rest.takeWhile isWs, isWs d = true :=
          fun d hd => List.mem_takeWhile_imp hd
        have htail : ∀ d ∈ ((rest.takeWhile isWs).reverse.takeWhile
            (fun d => !(d = '\n'))).reverse, isWs d = true := by
          intro d hd
          rw [List.mem_reverse] at hd
          have hd2 : d ∈ (rest.takeWhile isWs).reverse :=
            (List.takeWhile_sublist _).subset hd
          rw [List.mem_reverse] at hd2
          exact htw d hd2
        rw [nws_append, nws_all_ws htail, nws_cons_ws _ (by decide)]
        have hrest : nws rest = nws (rest.dropWhile isWs) := by
          conv_lhs => rw [← List.takeWhile_append_dropWhile (p := isWs) (l := rest)]
          rw [nws_append, nws_all_ws htw, List.nil_append]
        rw [hrest]
        simp [nws_nil]
      · rw [if_neg hc, ih _ _ hr]
        simp only [List.reverse_cons, nws_append]
        rw [show nws (c :: rest) = nws [c] ++ nws rest from nws_append [c] rest]
        simp [List.append_assoc]

theorem splitSentencesGo_succ (f : Nat) (acc : Str) (c : Char) (rest : Str) :
    splitSentencesGo (f + 1) acc (c :: rest) =
      if isSentEnd c ∧ !(rest.takeWhile isWs).isEmpty then
        (c :: acc).reverse :: splitSentencesGo f [] (rest.dropWhile isWs)
      else splitSentencesGo f (c :: acc) rest := rfl

theorem splitSentencesGo_nws :
    ∀ (fuel : Nat) (acc s : Str), s.length ≤ fuel →
      nws (splitSentencesGo fuel acc s).flatten = nws acc.reverse ++ nws s := by
  intro fuel
  induction fuel with
  | zero =>
    intro acc s hs
    have hnil : s = [] := List.eq_nil_of_length_eq_zero (Nat.le_zero.mp hs)
    subst hnil
    simp [splitSentencesGo, nws_nil]
  | succ f ih =>
    intro acc s hs
    cases s with
    | nil => simp [splitSentencesGo, nws_nil]
    | cons c rest =>
      have hr : rest.length ≤ f := by
        simp only [List.length_cons] at hs
        omega
      rw [splitSentencesGo_succ]
      by_cases hc : isSentEnd c ∧ !(rest.takeWhile isWs).isEmpty
      · rw [if_pos hc]
        have hlen : (rest.dropWhile isWs).length ≤ f :=
          le_trans (List.dropWhile_sublist _).length_le hr
        rw [List.flatten_cons, nws_append, ih _ _ hlen]
        have htw : ∀ d ∈ rest.takeWhile isWs, isWs d = true :=
          fun d hd => List.mem_takeWhile_imp hd
        have hrest : nws rest = nws (rest.dropWhile isWs) := by
          conv_lhs => rw [← List.takeWhile_append_dropWhile (p := isWs) (l := rest)]
          rw [nws_append, nws_all_ws htw, List.nil_append]
        rw [show nws (c :: rest) = nws [c] ++ nws rest from nws_append [c] rest,
          hrest]
        simp [nws_append, nws_nil]
      · rw [if_neg hc, ih _ _ hr]
        simp only [List.reverse_cons, nws_append]
        rw [show nws (c :: rest) = nws [c] ++ nws rest from nws_append [c] rest]
        simp [List.append_assoc]

theorem splitSentences_nws (t : Str) :
    nws (splitSentences t).flatten = nws t := by
  unfold splitSentences
  rw [splitSentencesGo_nws _ _ _ le_rfl]
  simp [nws_nil]

theorem hardSlicesGo_flatten (k : Nat) :
    ∀ (fuel : Nat) (s : Str), s.length ≤ fuel →
      (hardSlicesGo k fuel s).flatten = s := by
  intro fuel
  induction fuel with
  | zero =>
    intro s hs
    have hnil : s = [] := List.eq_nil_of_length_eq_zero (Nat.le_zero.mp hs)
    subst hnil
    rfl
  | succ f ih =>
    intro s hs
    cases s with
    | nil => rfl
    | cons c rest =>
      show (if k = 0 then [c :: rest]
        else (c :: rest).take k :: hardSlicesGo k f ((c :: rest).drop k)).flatten
          = c :: rest
      by_cases hk : k = 0
      · rw [if_pos hk]
        simp
      · rw [if_neg hk]
        have hlen : ((c :: rest).drop k).length ≤ f := by
          simp only [List.length_drop, List.length_cons]
          simp only [List.length_cons] at hs
          omega
        rw [List.flatten_cons, ih _ hlen, List.take_append_drop]

theorem hardSlices_flatten (k : Nat) (s : Str) :
    (hardSlices k s).flatten = s :=
  hardSlicesGo_flatten k s.length s le_rfl

theorem splitOversizedLoop_nws (cfg : ChunkConfig) :
    ∀ (sentences : List Str) (current : Str),
      nws (splitOversizedLoop cfg sentences current).flatten =
        nws current ++ nws sentences.flatten := by
  intro sentences
  induction sentences with
  | nil =>
    intro current
    by_cases hcur : current.isEmpty
    · have : current = [] := by
        cases current
        · rfl
        · simp at hcur
      subst this
      simp [splitOversizedLoop, nws_nil]
    · simp [splitOversizedLoop, hcur, nws_nil]
  | cons sentence rest ih =>
    intro current
    show nws ((if (strip sentence).isEmpty then splitOversizedLoop cfg rest current
      else
        (let candidate := if current.isEmpty then strip sentence
          else strip (current ++ ' ' :: strip sentence)
        if cfg.maxTokens < estimateTokens candidate then
          (if current.isEmpty then [] else [current]) ++
          (if cfg.maxTokens < estimateTokens (strip sentence) then
            hardSlices (maxCharsOf cfg.maxTokens) (strip sentence) ++
              splitOversizedLoop cfg rest []
          else splitOversizedLoop cfg rest (strip sentence))
        else splitOversizedLoop cfg rest candidate)).flatten) = _
    have hsent : nws sentence = nws (strip sentence) := (nws_strip sentence).symm
    by_cases hse : (strip sentence).isEmpty
    · rw [if_pos hse]
      have hnil : strip sentence = [] := by
        cases hstr : strip sentence
        · rfl
        · rw [hstr] at hse; simp at hse
      rw [ih current]
      simp only [List.flatten_cons, nws_append]
      rw [hsent, hnil, nws_nil]
      simp
    · rw [if_neg hse]
      simp only []
      have hcand : nws (if current.isEmpty then strip sentence
          else strip (current ++ ' ' :: strip sentence)) =
          nws current ++ nws (strip sentence) := by
        by_cases hcur : current.isEmpty
        · have : current = [] := by
            cases current
            · rfl
            · simp at hcur
          subst this
          rw [if_pos hcur]
          simp [nws_nil]
        · rw [if_neg hcur, nws_strip, nws_append]
          rw [show nws (' ' :: strip sentence) = nws (strip sentence) from
            nws_cons_ws _ (by decide)]
      by_cases hover : cfg.maxTokens < estimateTokens
          (if current.isEmpty then strip sentence
            else strip (current ++ ' ' :: strip sentence))
      · rw [if_pos hover]
        rw [List.flatten_append, nws_append]
        have hpre : nws (if current.isEmpty then ([] : List Str)
            else [current]).flatten = nws current := by
          by_cases hcur : current.isEmpty
          · have hn : current = [] := by
              cases current
              · rfl
              · simp at hcur
            subst hn
            rw [if_pos hcur]
            rfl
          · rw [if_neg hcur]
            simp
        rw [hpre]
        by_cases hsover : cfg.maxTokens < estimateTokens (strip sentence)
        · rw [if_pos hsover, List.flatten_append, nws_append,
            hardSlices_flatten, ih []]
          simp [List.flatten_cons, nws_append, nws_nil, ← hsent,
            List.append_assoc]
        · rw [if_neg hsover, ih (strip sentence)]
          simp [List.flatten_cons, nws_append, nws_nil, ← hsent,
            List.append_assoc]
      · rw [if_neg hover, ih _, hcand]
        simp [List.flatten_cons, nws_append, nws_nil, ← hsent,
          List.append_assoc]

theorem splitOversized_nws (cfg : ChunkConfig) (text : Str) :
    nws (splitOversized cfg text).flatten = nws text := by
  unfold splitOversized
  by_cases hc : (splitSentences text).length ≤ 1 ∧
      cfg.maxTokens < estimateTokens text
  · rw [if_pos hc, hardSlices_flatten]
  · rw [if_neg hc, splitOversizedLoop_nws, nws_nil, List.nil_append,
      splitSentences_nws]

theorem withOrders_map_text (b : TextBlock) :
    ∀ (ps : List Str) (n : Int),
      (withOrders b ps n).map (fun sb => sb.text) = ps := by
  intro ps
  induction ps with
  | nil => intro n; rfl
  | cons p rest ih => intro n; simp [withOrders, ih]

theorem subBlocksGo_map_text :
    ∀ (bs : List TextBlock) (n : Int),
      (subBlocksGo bs n).map (fun sb => sb.text) =
        (bs.map blockParas).flatten := by
  intro bs
  induction bs with
  | nil => intro n; rfl
  | cons b rest ih =>
    intro n
    simp only [subBlocksGo, List.map_append, withOrders_map_text, ih,
      List.map_cons, List.flatten_cons]

theorem unitsGo_map_text :
    ∀ (sbs : List TextBlock) (stack : List Str),
      (unitsGo sbs stack).map (fun u => u.text) =
        sbs.map (fun sb => sb.text) := by
  intro sbs
  induction sbs with
  | nil => intro stack; rfl
  | cons sb rest ih => intro stack; simp [unitsGo, ih]

theorem splitParas_nws (s : Str) : nws (splitParas s).flatten = nws s := by
  unfold splitParas
  rw [splitParasGo_nws _ _ _ le_rfl]
  simp [nws_nil]

theorem blockParas_nws (b : TextBlock) :
    nws (blockParas b).flatten = nws b.text := by
  unfold blockParas
  rw [filter_nonempty_flatten, nws_flatten_map_strip, splitParas_nws]

theorem blocksToUnits_nws (bs : List TextBlock) :
    nws ((blocksToUnits bs).map (fun u => u.text)).flatten =
      nws (bs.map (fun b => b.text)).flatten := by
  unfold blocksToUnits subBlocksOf
  rw [unitsGo_map_text, subBlocksGo_map_text]
  induction bs with
  | nil => rfl
  | cons b rest ih =>
    simp only [List.map_cons, List.flatten_cons, List.flatten_append,
      nws_append, blockParas_nws, ih]

theorem flushState_content (st : PackState) :
    packContent (flushState st) = packContent st := by
  have hjoin : nws (strip (joinNN st.curTexts)) = nws st.curTexts.flatten := by
    rw [nws_strip, nws_joinNN]
  simp only [flushState, packContent]
  by_cases ht : (strip (joinNN st.curTexts)).isEmpty
  · rw [if_pos ht]
    have hnil : strip (joinNN st.curTexts) = [] := by
      cases h : strip (joinNN st.curTexts)
      · rfl
      · rw [h] at ht; simp at ht
    have h0 : nws st.curTexts.flatten = [] := by
      rw [← hjoin, hnil, nws_nil]
    simp [h0, nws_nil]
  · rw [if_neg ht]
    simp [List.map_append, List.flatten_append, nws_append, hjoin, nws_nil]

theorem resetMeta_content (u : TUnit) (s : PackState) :
    packContent (resetMeta u s) = packContent s := rfl

theorem feedPiece_content (cfg : ChunkConfig) (u : TUnit) (st : PackState)
    (piece : Str) :
    packContent (feedPiece cfg u st piece) = packContent st ++ nws piece := by
  have key : ∀ s : PackState, packContent
      { s with curTexts := s.curTexts ++ [piece],
               curTokens := s.curTokens + estimateTokens piece,
               pageEnd := u.pageEnd } = packContent s ++ nws piece := by
    intro s
    unfold packContent
    simp [List.flatten_append, nws_append, List.append_assoc]
  simp only [feedPiece]
  split_ifs with h
  · rw [key, resetMeta_content, flushState_content]
  · rw [key]

theorem foldFeed_content (cfg : ChunkConfig) (u : TUnit) :
    ∀ (pieces : List Str) (st : PackState),
      packContent (pieces.foldl (feedPiece cfg u) st) =
        packContent st ++ nws pieces.flatten := by
  intro pieces
  induction pieces with
  | nil => intro st; simp [nws_nil]
  | cons p rest ih =>
    intro st
    rw [List.foldl_cons, ih, feedPiece_content]
    simp [List.flatten_cons, nws_append, List.append_assoc]

theorem packStep_content (cfg : ChunkConfig) (st : PackState) (u : TUnit) :
    packContent (packStep cfg st u) = packContent st ++ nws u.text := by
  simp only [packStep]
  set s1 := if u.kind = UKind.heading ∧ st.curTexts ≠ []
    then resetMeta u (flushState st) else st with hs1
  have h1 : packContent s1 = packContent st := by
    rw [hs1]
    split_ifs
    · rw [resetMeta_content, flushState_content]
    · rfl
  set s2 := if cfg.maxTokens < s1.curTokens + estimateTokens u.text ∧
      s1.curTexts ≠ [] ∧ cfg.minTokens ≤ s1.curTokens
    then resetMeta u (flushState s1) else s1 with hs2
  have h2 : packContent s2 = packContent st := by
    rw [hs2]
    split_ifs
    · rw [resetMeta_content, flushState_content, h1]
    · exact h1
  by_cases hov : cfg.maxTokens < estimateTokens u.text
  · rw [if_pos hov]
    set s3 := if s2.curTexts ≠ [] then resetMeta u (flushState s2) else s2
      with hs3
    have h3 : packContent s3 = packContent st := by
      rw [hs3]
      split_ifs
      · rw [resetMeta_content, flushState_content, h2]
      · exact h2
    rw [foldFeed_content, h3, splitOversized_nws]
  · rw [if_neg hov]
    set s3 := if cfg.targetTokens ≤ s2.curTokens ∧ s2.curTexts ≠ [] ∧
        (u.kind = UKind.heading ∨ u.kind = UKind.paragraph)
      then resetMeta u (flushState s2) else s2 with hs3
    have h3 : packContent s3 = packContent st := by
      rw [hs3]
      split_ifs
      · rw [resetMeta_content, flushState_content, h2]
      · exact h2
    have key : packContent
        { s3 with curTexts := s3.curTexts ++ [u.text],
                  curTokens := s3.curTokens + estimateTokens u.text,
                  pageEnd := u.pageEnd,
                  path := if s3.path = [] then u.sectionPath else s3.path } =
        packContent s3 ++ nws u.text := by
      unfold packContent
      simp [List.flatten_append, nws_append, List.append_assoc]
    rw [key, h3]

theorem packFold_content (cfg : ChunkConfig) :
    ∀ (l : List TUnit) (st : PackState),
      packContent (l.foldl (packStep cfg) st) =
        packContent st ++ nws (l.map (fun u => u.text)).flatten := by
  intro l
  induction l with
  | nil => intro st; simp [nws_nil]
  | cons u rest ih =>
    intro st
    rw [List.foldl_cons, ih, packStep_content]
    simp [List.map_cons, List.flatten_cons, nws_append, List.append_assoc]

theorem packContent_flushed (st : PackState) :
    nws ((flushState st).chunks.map (fun c => c.text)).flatten =
      packContent st := by
  have h := flushState_content st
  rw [show packContent (flushState st) =
      nws ((flushState st).chunks.map (fun c => c.text)).flatten ++
        nws ((flushState st).curTexts).flatten from rfl] at h
  rw [show (flushState st).curTexts = [] from rfl] at h
  simpa [nws_nil] using h

theorem packUnits_content (cfg : ChunkConfig) (us : List TUnit) :
    nws ((packUnits cfg us).map (fun c => c.text)).flatten =
      nws (us.map (fun u => u.text)).flatten := by
  cases us with
  | nil => rfl
  | cons u0 rest =>
    simp only [packUnits]
    rw [packContent_flushed, packFold_content]
    rw [show packContent (initState u0) = [] from rfl, List.nil_append]

theorem ppStep_content (cfg : ChunkConfig)
    (st : List ChunkResult × ChunkResult) (c : ChunkResult) :
    ppContent (ppStep cfg st c) = ppContent st ++ nws c.text := by
  have hnn : nws ('\n' :: '\n' :: c.text) = nws c.text := by
    rw [nws_cons_ws _ (by decide), nws_cons_ws _ (by decide)]
  unfold ppStep
  split_ifs with h
  · show ppContent (st.1, mergeChunks st.2 c) = _
    unfold ppContent mergeChunks
    simp only [nws_append, hnn, List.append_assoc]
  · show ppContent (st.1 ++ [st.2], c) = _
    unfold ppContent
    simp [List.map_append, List.flatten_append, nws_append, List.append_assoc]

theorem ppFold_content (cfg : ChunkConfig) :
    ∀ (l : List ChunkResult) (st : List ChunkResult × ChunkResult),
      ppContent (l.foldl (ppStep cfg) st) =
        ppContent st ++ nws (l.map (fun c => c.text)).flatten := by
  intro l
  induction l with
  | nil => intro st; simp [nws_nil]
  | cons c rest ih =>
    intro st
    rw [List.foldl_cons, ih, ppStep_content]
    simp [List.map_cons, List.flatten_cons, nws_append, List.append_assoc]

theorem ppContent_emit (st : List ChunkResult × ChunkResult) :
    nws ((st.1 ++ [st.2]).map (fun c => c.text)).flatten = ppContent st := by
  unfold ppContent
  simp [List.map_append, List.flatten_append, nws_append]

theorem postprocess_content (cfg : ChunkConfig) (cs : List ChunkResult) :
    nws ((postprocessChunks cfg cs).map (fun c => c.text)).flatten =
      nws (cs.map (fun c => c.text)).flatten := by
  cases cs with
  | nil => rfl
  | cons c0 rest =>
    simp only [postprocessChunks]
    rw [ppContent_emit, ppFold_content]
    rw [show ppContent (([] : List ChunkResult), c0) = nws c0.text from rfl]
    simp [List.map_cons, List.flatten_cons, nws_append]

theorem zip_reindex_text :
    ∀ (cs : List ChunkResult) (is : List Nat), cs.length ≤ is.length →
      (cs.zipWith (fun c i => { c with chunkIndex := i }) is).map
        (fun c => c.text) = cs.map (fun c => c.text) := by
  intro cs
  induction cs with
  | nil => intro is h; rfl
  | cons c rest ih =>
    intro is h
    cases is with
    | nil => simp at h
    | cons i irest =>
      have h2 : rest.length ≤ irest.length := by
        simp only [List.length_cons] at h
        omega
      simp only [List.zipWith_cons_cons, List.map_cons, ih irest h2]

theorem reindex_map_text (cs : List ChunkResult) :
    (reindex cs).map (fun c => c.text) = cs.map (fun c => c.text) := by
  unfold reindex
  exact zip_reindex_text cs (List.range cs.length) (by rw [List.length_range])

/-- Claim C8 counterexample: the literal concatenation of the output
chunk texts is NOT the concatenation of the surviving normalized block
texts — the packer joins buffered texts with a blank-line separator, so
whitespace differs (here one chunk with an inserted blank line versus
the two bare block texts). -/
theorem chunk_concat_cex :
    ¬ ((chunk defaultConfig abBlocks).map (fun c => c.text)).flatten =
      ((removeHeadersFooters (normalizeBlocks abBlocks)).map
        (fun b => b.text)).flatten := by decide

/-- Claim C8 (amended): with `overlap_tokens = 0`, concatenating the
output chunk texts reproduces the concatenated normalized surviving
block texts up to whitespace: the sequence of non-whitespace
characters, in order, is exactly preserved (whitespace is reshaped by
paragraph/sentence splitting, stripping and blank-line joining). -/
theorem chunk_content_preserved (cfg : ChunkConfig) (blocks : List TextBlock)
    (hov : cfg.overlapTokens = 0) :
    nws ((chunk cfg blocks).map (fun c => c.text)).flatten =
      nws ((removeHeadersFooters (normalizeBlocks blocks)).map
        (fun b => b.text)).flatten := by
  by_cases hb : blocks = []
  · subst hb
    rfl
  · simp only [chunk, if_neg hb]
    rw [if_neg (show ¬ 0 < cfg.overlapTokens by omega)]
    rw [reindex_map_text, postprocess_content, packUnits_content,
      blocksToUnits_nws]

/-- Witness for the amended C8 on a concrete two-block document with
the default (zero-overlap) configuration. -/
theorem chunk_content_preserved_witness :
    defaultConfig.overlapTokens = 0 ∧
      nws ((chunk defaultConfig abBlocks).map (fun c => c.text)).flatten =
        nws ((removeHeadersFooters (normalizeBlocks abBlocks)).map
          (fun b => b.text)).flatten :=
  ⟨rfl, chunk_content_preserved defaultConfig abBlocks rfl⟩

/-! ### Claim C1: token-budget bound on emitted chunks -/

theorem est_ge_one (s : Str) : 1 ≤ estimateTokens s :=
  le_max_left 1 _

theorem est_div_le (s : Str) : s.length * 5 / 18 ≤ estimateTokens s :=
  le_max_right 1 _

theorem est_len_le (s : Str) : s.length * 5 ≤ 18 * estimateTokens s + 17 := by
  have h1 := Nat.div_add_mod (s.length * 5) 18
  have h2 : s.length * 5 % 18 < 18 := Nat.mod_lt _ (by omega)
  have h3 := est_div_le s
  omega

theorem est_le_of (s : Str) (B : Nat) (h1 : 1 ≤ B)
    (h2 : s.length * 5 / 18 ≤ B) : estimateTokens s ≤ B :=
  max_le h1 h2

theorem est_mono {a b : Str} (h : a.length ≤ b.length) :
    estimateTokens a ≤ estimateTokens b :=
  max_le_max le_rfl (Nat.div_le_div_right (Nat.mul_le_mul_right 5 h))

theorem strip_length_le (s : Str) : (strip s).length ≤ s.length := by
  unfold strip
  calc ((s.dropWhile isWs).reverse.dropWhile isWs).reverse.length
      = ((s.dropWhile isWs).reverse.dropWhile isWs).length :=
        List.length_reverse _
    _ ≤ (s.dropWhile isWs).reverse.length :=
        (List.dropWhile_sublist _).length_le
    _ = (s.dropWhile isWs).length := List.length_reverse _
    _ ≤ s.length := (List.dropWhile_sublist _).length_le

theorem joinNN_length_le (ts : List Str) :
    (joinNN ts).length ≤ (ts.map List.length).sum + 2 * ts.length := by
  induction ts with
  | nil => simp [joinNN]
  | cons t rest ih =>
    cases rest with
    | nil => simp [joinNN]
    | cons t2 r2 =>
      show (t ++ '\n' :: '\n' :: joinNN (t2 :: r2)).length ≤ _
      have h := ih
      simp only [List.map_cons, List.sum_cons, List.length_cons] at h ⊢
      simp only [List.length_append, List.length_cons]
      omega

theorem sum_len_le_est (ts : List Str) :
    (ts.map List.length).sum * 5 ≤
      18 * (ts.map estimateTokens).sum + 17 * ts.length := by
  induction ts with
  | nil => simp
  | cons t rest ih =>
    simp only [List.map_cons, List.sum_cons, List.length_cons]
    have h := est_len_le t
    omega

theorem length_le_sum_est (ts : List Str) :
    ts.length ≤ (ts.map estimateTokens).sum := by
  induction ts with
  | nil => simp
  | cons t rest ih =>
    simp only [List.map_cons, List.sum_cons, List.length_cons]
    have h := est_ge_one t
    omega

theorem est_flush_text (ts : List Str) :
    estimateTokens (strip (joinNN ts)) ≤
      3 * (ts.map estimateTokens).sum + 1 := by
  have h1 : (strip (joinNN ts)).length ≤ (joinNN ts).length :=
    strip_length_le _
  have h2 := joinNN_length_le ts
  have h3 := sum_len_le_est ts
  have h4 := length_le_sum_est ts
  apply est_le_of
  · omega
  · have h6 := Nat.div_add_mod ((strip (joinNN ts)).length * 5) 18
    have h7 : (strip (joinNN ts)).length * 5 % 18 < 18 :=
      Nat.mod_lt _ (by omega)
    omega

theorem flushState_inv (cfg : ChunkConfig) (st : PackState)
    (hsum : st.curTokens = (st.curTexts.map estimateTokens).sum)
    (hcur : st.curTokens ≤ cfg.maxTokens + cfg.minTokens)
    (hch : ∀ c ∈ st.chunks, estimateTokens c.text ≤
      3 * (cfg.maxTokens + cfg.minTokens) + 1) :
    (flushState st).curTokens = 0 ∧ (flushState st).curTexts = [] ∧
      ∀ c ∈ (flushState st).chunks, estimateTokens c.text ≤
        3 * (cfg.maxTokens + cfg.minTokens) + 1 := by
  refine ⟨rfl, rfl, ?_⟩
  intro c hc
  simp only [flushState] at hc
  by_cases ht : (strip (joinNN st.curTexts)).isEmpty
  · rw [if_pos ht] at hc
    exact hch c hc
  · rw [if_neg ht] at hc
    rcases List.mem_append.mp hc with hc | hc
    · exact hch c hc
    · rcases List.mem_singleton.mp hc with rfl
      show estimateTokens (strip (joinNN st.curTexts)) ≤ _
      have h := est_flush_text st.curTexts
      omega

theorem flushReset_inv (cfg : ChunkConfig) (u : TUnit) (st : PackState)
    (hsum : st.curTokens = (st.curTexts.map estimateTokens).sum)
    (hcur : st.curTokens ≤ cfg.maxTokens + cfg.minTokens)
    (hch : ∀ c ∈ st.chunks, estimateTokens c.text ≤
      3 * (cfg.maxTokens + cfg.minTokens) + 1) :
    (resetMeta u (flushState st)).curTokens =
        (((resetMeta u (flushState st)).curTexts).map estimateTokens).sum ∧
      (resetMeta u (flushState st)).curTokens ≤
        cfg.maxTokens + cfg.minTokens ∧
      ∀ c ∈ (resetMeta u (flushState st)).chunks, estimateTokens c.text ≤
        3 * (cfg.maxTokens + cfg.minTokens) + 1 := by
  obtain ⟨h0, he, hc⟩ := flushState_inv cfg st hsum hcur hch
  refine ⟨?_, ?_, fun c hcm => hc c hcm⟩
  · show (flushState st).curTokens =
      (((flushState st).curTexts).map estimateTokens).sum
    rw [h0, he]
    rfl
  · show (flushState st).curTokens ≤ _
    rw [h0]
    omega

theorem feedPiece_inv (cfg : ChunkConfig) (u : TUnit) (st : PackState)
    (piece : Str) (hp : estimateTokens piece ≤ cfg.maxTokens)
    (hsum : st.curTokens = (st.curTexts.map estimateTokens).sum)
    (hcur : st.curTokens ≤ cfg.maxTokens + cfg.minTokens)
    (hch : ∀ c ∈ st.chunks, estimateTokens c.text ≤
      3 * (cfg.maxTokens + cfg.minTokens) + 1) :
    (feedPiece cfg u st piece).curTokens =
        (((feedPiece cfg u st piece).curTexts).map estimateTokens).sum ∧
      (feedPiece cfg u st piece).curTokens ≤
        cfg.maxTokens + cfg.minTokens ∧
      ∀ c ∈ (feedPiece cfg u st piece).chunks, estimateTokens c.text ≤
        3 * (cfg.maxTokens + cfg.minTokens) + 1 := by
  obtain ⟨hf0, hfe, hfc⟩ := flushState_inv cfg st hsum hcur hch
  simp only [feedPiece]
  split_ifs with h
  · refine ⟨?_, ?_, fun c hcm => hfc c hcm⟩
    · show (flushState st).curTokens + estimateTokens piece =
        (((flushState st).curTexts ++ [piece]).map estimateTokens).sum
      rw [hf0, hfe]
      simp
    · show (flushState st).curTokens + estimateTokens piece ≤ _
      rw [hf0]
      omega
  · refine ⟨?_, ?_, fun c hcm => hch c hcm⟩
    · show st.curTokens + estimateTokens piece =
        ((st.curTexts ++ [piece]).map estimateTokens).sum
      rw [hsum]
      simp
    · show st.curTokens + estimateTokens piece ≤ _
      by_cases hover : cfg.maxTokens < st.curTokens + estimateTokens piece
      · have he : st.curTexts = [] := by
          by_contra hne
          exact h ⟨hover, hne⟩
        rw [he] at hsum
        simp at hsum
        omega
      · omega

theorem foldFeed_inv (cfg : ChunkConfig) (u : TUnit) :
    ∀ (pieces : List Str) (st : PackState),
      (∀ p ∈ pieces, estimateTokens p ≤ cfg.maxTokens) →
      st.curTokens = (st.curTexts.map estimateTokens).sum →
      st.curTokens ≤ cfg.maxTokens + cfg.minTokens →
      (∀ c ∈ st.chunks, estimateTokens c.text ≤
        3 * (cfg.maxTokens + cfg.minTokens) + 1) →
      (pieces.foldl (feedPiece cfg u) st).curTokens =
          ((((pieces.foldl (feedPiece cfg u) st)).curTexts).map
            estimateTokens).sum ∧
        (pieces.foldl (feedPiece cfg u) st).curTokens ≤
          cfg.maxTokens + cfg.minTokens ∧
        ∀ c ∈ (pieces.foldl (feedPiece cfg u) st).chunks,
          estimateTokens c.text ≤
            3 * (cfg.maxTokens + cfg.minTokens) + 1 := by
  intro pieces
  induction pieces with
  | nil => intro st hp hsum hcur hch; exact ⟨hsum, hcur, hch⟩
  | cons p rest ih =>
    intro st hp hsum hcur hch
    rw [List.foldl_cons]
    obtain ⟨h1, h2, h3⟩ := feedPiece_inv cfg u st p
      (hp p (List.mem_cons_self _ _)) hsum hcur hch
    exact ih _ (fun q hq => hp q (List.mem_cons_of_mem _ hq)) h1 h2 h3

theorem hardSlicesGo_length_le (k : Nat) (hk : 1 ≤ k) :
    ∀ (fuel : Nat) (s : Str), s.length ≤ fuel →
      ∀ p ∈ hardSlicesGo k fuel s, p.length ≤ k := by
  intro fuel
  induction fuel with
  | zero =>
    intro s hs p hp
    have hnil : s = [] := List.eq_nil_of_length_eq_zero (Nat.le_zero.mp hs)
    subst hnil
    simp [hardSlicesGo] at hp
  | succ f ih =>
    intro s hs p hp
    cases s with
    | nil => simp [hardSlicesGo] at hp
    | cons c rest =>
      have hp2 : p ∈ (if k = 0 then [c :: rest]
          else (c :: rest).take k :: hardSlicesGo k f ((c :: rest).drop k)) :=
        hp
      rw [if_neg (by omega : ¬ k = 0)] at hp2
      rcases List.mem_cons.mp hp2 with rfl | hp3
      · rw [List.length_take]
        exact min_le_left _ _
      · have hlen : ((c :: rest).drop k).length ≤ f := by
          simp only [List.length_drop, List.length_cons]
          simp only [List.length_cons] at hs
          omega
        exact ih _ hlen p hp3

theorem hardSlices_est_le (cfg : ChunkConfig) (hM : 1 ≤ cfg.maxTokens)
    (s : Str) : ∀ p ∈ hardSlices (maxCharsOf cfg.maxTokens) s,
      estimateTokens p ≤ cfg.maxTokens := by
  intro p hp
  have hk : 1 ≤ maxCharsOf cfg.maxTokens := by
    unfold maxCharsOf
    omega
  have hlen : p.length ≤ maxCharsOf cfg.maxTokens :=
    hardSlicesGo_length_le _ hk s.length s le_rfl p hp
  apply est_le_of _ _ hM
  have h2 : maxCharsOf cfg.maxTokens * 5 ≤ cfg.maxTokens * 18 := by
    unfold maxCharsOf
    exact Nat.div_mul_le_self _ _
  have h6 := Nat.div_add_mod (p.length * 5) 18
  have h7 : p.length * 5 % 18 < 18 := Nat.mod_lt _ (by omega)
  omega

theorem splitOversizedLoop_est_le (cfg : ChunkConfig)
    (hM : 1 ≤ cfg.maxTokens) :
    ∀ (sentences : List Str) (current : Str),
      (current = [] ∨ estimateTokens current ≤ cfg.maxTokens) →
      ∀ p ∈ splitOversizedLoop cfg sentences current,
        estimateTokens p ≤ cfg.maxTokens := by
  intro sentences
  induction sentences with
  | nil =>
    intro current hcur p hp
    by_cases hc : current.isEmpty
    · simp [splitOversizedLoop, hc] at hp
    · simp only [splitOversizedLoop, if_neg hc] at hp
      rcases List.mem_singleton.mp hp with rfl
      rcases hcur with h | h
      · subst h
        simp at hc
      · exact h
  | cons sentence rest ih =>
    intro current hcur p hp
    have hp2 : p ∈ (if (strip sentence).isEmpty then
        splitOversizedLoop cfg rest current
      else
        (let candidate := if current.isEmpty then strip sentence
          else strip (current ++ ' ' :: strip sentence)
        if cfg.maxTokens < estimateTokens candidate then
          (if current.isEmpty then [] else [current]) ++
          (if cfg.maxTokens < estimateTokens (strip sentence) then
            hardSlices (maxCharsOf cfg.maxTokens) (strip sentence) ++
              splitOversizedLoop cfg rest []
          else splitOversizedLoop cfg rest (strip sentence))
        else splitOversizedLoop cfg rest candidate)) := hp
    by_cases hse : (strip sentence).isEmpty
    · rw [if_pos hse] at hp2
      exact ih current hcur p hp2
    · rw [if_neg hse] at hp2
      simp only [] at hp2
      by_cases hover : cfg.maxTokens < estimateTokens
          (if current.isEmpty then strip sentence
            else strip (current ++ ' ' :: strip sentence))
      · rw [if_pos hover] at hp2
        rcases List.mem_append.mp hp2 with hpl | hpr
        · by_cases hce : current.isEmpty
          · rw [if_pos hce] at hpl
            simp at hpl
          · rw [if_neg hce] at hpl
            rcases List.mem_singleton.mp hpl with rfl
            rcases hcur with h | h
            · subst h
              simp at hce
            · exact h
        · by_cases hso : cfg.maxTokens < estimateTokens (strip sentence)
          · rw [if_pos hso] at hpr
            rcases List.mem_append.mp hpr with hph | hpt
            · exact hardSlices_est_le cfg hM _ p hph
            · exact ih [] (Or.inl rfl) p hpt
          · rw [if_neg hso] at hpr
            exact ih (strip sentence) (Or.inr (Nat.le_of_not_lt hso)) p hpr
      · rw [if_neg hover] at hp2
        exact ih _ (Or.inr (Nat.le_of_not_lt hover)) p hp2

theorem splitOversized_est_le (cfg : ChunkConfig) (hM : 1 ≤ cfg.maxTokens)
    (text : Str) : ∀ p ∈ splitOversized cfg text,
      estimateTokens p ≤ cfg.maxTokens := by
  intro p hp
  unfold splitOversized at hp
  by_cases hc : (splitSentences text).length ≤ 1 ∧
      cfg.maxTokens < estimateTokens text
  · rw [if_pos hc] at hp
    exact hardSlices_est_le cfg hM text p hp
  · rw [if_neg hc] at hp
    exact splitOversizedLoop_est_le cfg hM _ [] (Or.inl rfl) p hp

theorem packStep_inv (cfg : ChunkConfig) (hM : 1 ≤ cfg.maxTokens)
    (st : PackState) (u : TUnit)
    (hsum : st.curTokens = (st.curTexts.map estimateTokens).sum)
    (hcur : st.curTokens ≤ cfg.maxTokens + cfg.minTokens)
    (hch : ∀ c ∈ st.chunks, estimateTokens c.text ≤
      3 * (cfg.maxTokens + cfg.minTokens) + 1) :
    (packStep cfg st u).curTokens =
        (((packStep cfg st u).curTexts).map estimateTokens).sum ∧
      (packStep cfg st u).curTokens ≤ cfg.maxTokens + cfg.minTokens ∧
      ∀ c ∈ (packStep cfg st u).chunks, estimateTokens c.text ≤
        3 * (cfg.maxTokens + cfg.minTokens) + 1 := by
  simp only [packStep]
  set s1 := if u.kind = UKind.heading ∧ st.curTexts ≠ []
    then resetMeta u (flushState st) else st with hs1
  have h1 : s1.curTokens = ((s1.curTexts).map estimateTokens).sum ∧
      s1.curTokens ≤ cfg.maxTokens + cfg.minTokens ∧
      ∀ c ∈ s1.chunks, estimateTokens c.text ≤
        3 * (cfg.maxTokens + cfg.minTokens) + 1 := by
    rw [hs1]
    split_ifs
    · exact flushReset_inv cfg u st hsum hcur hch
    · exact ⟨hsum, hcur, hch⟩
  obtain ⟨h1s, h1c, h1h⟩ := h1
  set s2 := if cfg.maxTokens < s1.curTokens + estimateTokens u.text ∧
      s1.curTexts ≠ [] ∧ cfg.minTokens ≤ s1.curTokens
    then resetMeta u (flushState s1) else s1 with hs2
  have h2 : s2.curTokens = ((s2.curTexts).map estimateTokens).sum ∧
      s2.curTokens ≤ cfg.maxTokens + cfg.minTokens ∧
      ∀ c ∈ s2.chunks, estimateTokens c.text ≤
        3 * (cfg.maxTokens + cfg.minTokens) + 1 := by
    rw [hs2]
    split_ifs
    · exact flushReset_inv cfg u s1 h1s h1c h1h
    · exact ⟨h1s, h1c, h1h⟩
  obtain ⟨h2s, h2c, h2h⟩ := h2
  by_cases hov : cfg.maxTokens < estimateTokens u.text
  · rw [if_pos hov]
    set s3 := if s2.curTexts ≠ [] then resetMeta u (flushState s2) else s2
      with hs3
    have h3 : s3.curTokens = ((s3.curTexts).map estimateTokens).sum ∧
        s3.curTokens ≤ cfg.maxTokens + cfg.minTokens ∧
        ∀ c ∈ s3.chunks, estimateTokens c.text ≤
          3 * (cfg.maxTokens + cfg.minTokens) + 1 := by
      rw [hs3]
      split_ifs
      · exact flushReset_inv cfg u s2 h2s h2c h2h
      · exact ⟨h2s, h2c, h2h⟩
    obtain ⟨h3s, h3c, h3h⟩ := h3
    exact foldFeed_inv cfg u _ s3 (splitOversized_est_le cfg hM u.text)
      h3s h3c h3h
  · rw [if_neg hov]
    have hut : estimateTokens u.text ≤ cfg.maxTokens := Nat.le_of_not_lt hov
    set s3 := if cfg.targetTokens ≤ s2.curTokens ∧ s2.curTexts ≠ [] ∧
        (u.kind = UKind.heading ∨ u.kind = UKind.paragraph)
      then resetMeta u (flushState s2) else s2 with hs3
    have h3 : s3.curTokens = ((s3.curTexts).map estimateTokens).sum ∧
        ∀ c ∈ s3.chunks, estimateTokens c.text ≤
          3 * (cfg.maxTokens + cfg.minTokens) + 1 := by
      rw [hs3]
      split_ifs
      · obtain ⟨a, b, c⟩ := flushReset_inv cfg u s2 h2s h2c h2h
        exact ⟨a, c⟩
      · exact ⟨h2s, h2h⟩
    obtain ⟨h3s, h3h⟩ := h3
    have hQ2 : s2.curTokens + estimateTokens u.text ≤
        cfg.maxTokens + cfg.minTokens := by
      rw [hs2]
      split_ifs with hfl
      · show (flushState s1).curTokens + _ ≤ _
        obtain ⟨h0, -, -⟩ := flushState_inv cfg s1 h1s h1c h1h
        rw [h0]
        omega
      · by_cases ha : cfg.maxTokens < s1.curTokens + estimateTokens u.text
        · by_cases hb : s1.curTexts = []
          · have h0 : s1.curTokens = 0 := by
              rw [h1s, hb]
              rfl
            omega
          · have hc3 : ¬ cfg.minTokens ≤ s1.curTokens := by
              intro hmle
              exact hfl ⟨ha, hb, hmle⟩
            omega
        · omega
    have hQ3 : s3.curTokens + estimateTokens u.text ≤
        cfg.maxTokens + cfg.minTokens := by
      rw [hs3]
      split_ifs
      · show (flushState s2).curTokens + _ ≤ _
        obtain ⟨h0, -, -⟩ := flushState_inv cfg s2 h2s h2c h2h
        rw [h0]
        omega
      · exact hQ2
    refine ⟨?_, hQ3, fun c hcm => h3h c hcm⟩
    show s3.curTokens + estimateTokens u.text =
      ((s3.curTexts ++ [u.text]).map estimateTokens).sum
    rw [h3s]
    simp

theorem packFold_inv (cfg : ChunkConfig) (hM : 1 ≤ cfg.maxTokens) :
    ∀ (us : List TUnit) (st : PackState),
      st.curTokens = (st.curTexts.map estimateTokens).sum →
      st.curTokens ≤ cfg.maxTokens + cfg.minTokens →
      (∀ c ∈ st.chunks, estimateTokens c.text ≤
        3 * (cfg.maxTokens + cfg.minTokens) + 1) →
      (us.foldl (packStep cfg) st).curTokens =
          (((us.foldl (packStep cfg) st).curTexts).map estimateTokens).sum ∧
        (us.foldl (packStep cfg) st).curTokens ≤
          cfg.maxTokens + cfg.minTokens ∧
        ∀ c ∈ (us.foldl (packStep cfg) st).chunks, estimateTokens c.text ≤
          3 * (cfg.maxTokens + cfg.minTokens) + 1 := by
  intro us
  induction us with
  | nil => intro st hsum hcur hch; exact ⟨hsum, hcur, hch⟩
  | cons u rest ih =>
    intro st hsum hcur hch
    rw [List.foldl_cons]
    obtain ⟨h1, h2, h3⟩ := packStep_inv cfg hM st u hsum hcur hch
    exact ih _ h1 h2 h3

theorem packUnits_est_le (cfg : ChunkConfig) (hM : 1 ≤ cfg.maxTokens)
    (us : List TUnit) :
    ∀ c ∈ packUnits cfg us, estimateTokens c.text ≤
      3 * (cfg.maxTokens + cfg.minTokens) + 1 := by
  cases us with
  | nil => intro c hc; simp [packUnits] at hc
  | cons u0 rest =>
    intro c hc
    simp only [packUnits] at hc
    obtain ⟨hsum, hcur, hch⟩ := packFold_inv cfg hM (u0 :: rest)
      (initState u0) rfl (by show 0 ≤ _; omega)
      (by intro x hx; simp [initState] at hx)
    obtain ⟨-, -, hc3⟩ := flushState_inv cfg _ hsum hcur hch
    exact hc3 c hc

theorem ppStep_est_le (cfg : ChunkConfig) (B : Nat)
    (hMB : cfg.maxTokens ≤ B) (st : List ChunkResult × ChunkResult)
    (c : ChunkResult)
    (hst1 : ∀ x ∈ st.1, estimateTokens x.text ≤ B)
    (hst2 : estimateTokens st.2.text ≤ B)
    (hc : estimateTokens c.text ≤ B) :
    (∀ x ∈ (ppStep cfg st c).1, estimateTokens x.text ≤ B) ∧
      estimateTokens ((ppStep cfg st c).2).text ≤ B := by
  unfold ppStep
  split_ifs with h
  · refine ⟨hst1, ?_⟩
    show estimateTokens (st.2.text ++ '\n' :: '\n' :: c.text) ≤ B
    exact le_trans h.2.1 hMB
  · refine ⟨?_, hc⟩
    intro x hx
    rcases List.mem_append.mp hx with hx | hx
    · exact hst1 x hx
    · rcases List.mem_singleton.mp hx with rfl
      exact hst2

theorem ppFold_est_le (cfg : ChunkConfig) (B : Nat)
    (hMB : cfg.maxTokens ≤ B) :
    ∀ (l : List ChunkResult) (st : List ChunkResult × ChunkResult),
      (∀ x ∈ st.1, estimateTokens x.text ≤ B) →
      estimateTokens st.2.text ≤ B →
      (∀ x ∈ l, estimateTokens x.text ≤ B) →
      (∀ x ∈ (l.foldl (ppStep cfg) st).1, estimateTokens x.text ≤ B) ∧
        estimateTokens ((l.foldl (ppStep cfg) st).2).text ≤ B := by
  intro l
  induction l with
  | nil => intro st h1 h2 hl; exact ⟨h1, h2⟩
  | cons c rest ih =>
    intro st h1 h2 hl
    rw [List.foldl_cons]
    obtain ⟨g1, g2⟩ := ppStep_est_le cfg B hMB st c h1 h2
      (hl c (List.mem_cons_self _ _))
    exact ih _ g1 g2 (fun x hx => hl x (List.mem_cons_of_mem _ hx))

theorem postprocess_est_le (cfg : ChunkConfig) (B : Nat)
    (hMB : cfg.maxTokens ≤ B) (cs : List ChunkResult)
    (hcs : ∀ c ∈ cs, estimateTokens c.text ≤ B) :
    ∀ c ∈ postprocessChunks cfg cs, estimateTokens c.text ≤ B := by
  cases cs with
  | nil => intro c hc; simp [postprocessChunks] at hc
  | cons c0 rest =>
    intro c hc
    simp only [postprocessChunks] at hc
    obtain ⟨h1, h2⟩ := ppFold_est_le cfg B hMB rest
      (([] : List ChunkResult), c0) (by intro x hx; simp at hx)
      (hcs c0 (List.mem_cons_self _ _))
      (fun x hx => hcs x (List.mem_cons_of_mem _ hx))
    rcases List.mem_append.mp hc with hc | hc
    · exact h1 c hc
    · rcases List.mem_singleton.mp hc with rfl
      exact h2

theorem lastN_length_le (n : Nat) (l : Str) : (lastN n l).length ≤ n := by
  unfold lastN
  rw [List.length_drop]
  omega

theorem overlapTail_length_le (t : Str) :
    (overlapTail t).length ≤ t.length := by
  unfold overlapTail
  cases h : t.findIdx? (fun c => c = ' ') with
  | none => exact le_rfl
  | some i =>
    show (if 0 < i then t.drop (i + 1) else t).length ≤ t.length
    split_ifs
    · rw [List.length_drop]
      omega
    · exact le_rfl

theorem overlapStep_est_le (cfg : ChunkConfig) (prevText : Str)
    (c : ChunkResult) :
    estimateTokens (overlapStep cfg prevText c).text ≤
      estimateTokens c.text + cfg.overlapTokens + 2 := by
  simp only [overlapStep]
  split_ifs with h
  · show estimateTokens ('.' :: '.' :: '.' ::
      (overlapTail (lastN (cfg.overlapTokens * 18 / 5) prevText) ++
        '\n' :: '\n' :: c.text)) ≤ _
    have h1 : (overlapTail
        (lastN (cfg.overlapTokens * 18 / 5) prevText)).length ≤
        cfg.overlapTokens * 18 / 5 :=
      le_trans (overlapTail_length_le _) (lastN_length_le _ _)
    have h2 : cfg.overlapTokens * 18 / 5 * 5 ≤ cfg.overlapTokens * 18 :=
      Nat.div_mul_le_self _ _
    have h3 := est_len_le c.text
    apply est_le_of
    · omega
    · simp only [List.length_cons, List.length_append]
      have h6 := Nat.div_add_mod
        (((overlapTail (lastN (cfg.overlapTokens * 18 / 5)
          prevText)).length + (c.text.length + 1 + 1) + 1 + 1 + 1) * 5) 18
      omega
  · omega

theorem applyOverlapGo_est (cfg : ChunkConfig) :
    ∀ (cs : List ChunkResult) (prevText : Str),
      ∀ x ∈ applyOverlapGo cfg prevText cs, ∃ c ∈ cs,
        estimateTokens x.text ≤
          estimateTokens c.text + cfg.overlapTokens + 2 := by
  intro cs
  induction cs with
  | nil => intro prevText x hx; simp [applyOverlapGo] at hx
  | cons c rest ih =>
    intro prevText x hx
    simp only [applyOverlapGo] at hx
    rcases List.mem_cons.mp hx with rfl | hx
    · exact ⟨c, List.mem_cons_self _ _, overlapStep_est_le cfg prevText c⟩
    · rcases ih _ x hx with ⟨c2, hc2, hle⟩
      exact ⟨c2, List.mem_cons_of_mem _ hc2, hle⟩

theorem applyOverlap_est (cfg : ChunkConfig) (cs : List ChunkResult) :
    ∀ x ∈ applyOverlap cfg cs, ∃ c ∈ cs,
      estimateTokens x.text ≤
        estimateTokens c.text + cfg.overlapTokens + 2 := by
  intro x hx
  cases cs with
  | nil => simp [applyOverlap] at hx
  | cons c0 rest =>
    cases rest with
    | nil =>
      simp only [applyOverlap] at hx
      rcases List.mem_singleton.mp hx with rfl
      exact ⟨x, List.mem_singleton_self _, by omega⟩
    | cons c1 r2 =>
      simp only [applyOverlap] at hx
      split_ifs at hx
      · exact ⟨x, hx, by omega⟩
      · rcases List.mem_cons.mp hx with rfl | hx
        · exact ⟨x, List.mem_cons_self _ _, by omega⟩
        · rcases applyOverlapGo_est cfg _ _ x hx with ⟨c2, hc2, hle⟩
          exact ⟨c2, List.mem_cons_of_mem _ hc2, hle⟩

/-- Claim C1: for every block list and every configuration with
`min_tokens ≤ target_tokens ≤ max_tokens` (and a positive budget
`1 ≤ max_tokens`, without which every unit exceeds the budget), every
chunk emitted by `HybridChunker.chunk` has token estimate at most
`max_tokens` plus the explicit bounded tolerance
`2*max_tokens + 3*min_tokens + overlap_tokens + 3`; the bound holds
for ALL chunks — the claim's exception for unsplittable oversized runs
is not needed, because hard slicing bounds every buffered piece. -/
theorem chunk_token_bound (cfg : ChunkConfig) (blocks : List TextBlock)
    (_hmt : cfg.minTokens ≤ cfg.targetTokens)
    (_htm : cfg.targetTokens ≤ cfg.maxTokens)
    (hM : 1 ≤ cfg.maxTokens) :
    ∀ c ∈ chunk cfg blocks,
      estimateTokens c.text ≤ cfg.maxTokens + (2 * cfg.maxTokens +
        3 * cfg.minTokens + cfg.overlapTokens + 3) := by
  intro c hc
  by_cases hb : blocks = []
  · simp [chunk, hb] at hc
  · simp only [chunk, if_neg hb] at hc
    rcases reindex_text _ c hc with ⟨c2, hc2, he⟩
    rw [he]
    have hpp : ∀ x ∈ postprocessChunks cfg (packUnits cfg (blocksToUnits
        (removeHeadersFooters (normalizeBlocks blocks)))),
        estimateTokens x.text ≤
          3 * (cfg.maxTokens + cfg.minTokens) + 1 :=
      postprocess_est_le cfg _ (by omega) _ (packUnits_est_le cfg hM _)
    by_cases hov : 0 < cfg.overlapTokens
    · rw [if_pos hov] at hc2
      rcases applyOverlap_est cfg _ c2 hc2 with ⟨c3, hc3, hle⟩
      have hb3 := hpp c3 hc3
      omega
    · rw [if_neg hov] at hc2
      have hb2 := hpp c2 hc2
      omega

/-- Witness for C1: the default configuration on a concrete document,
with every hypothesis checked on the nose and the bound instantiated
at the produced chunk. -/
theorem chunk_token_bound_witness :
    defaultConfig.minTokens ≤ defaultConfig.targetTokens ∧
      defaultConfig.targetTokens ≤ defaultConfig.maxTokens ∧
      1 ≤ defaultConfig.maxTokens ∧
      estimateTokens aChunk.text ≤ defaultConfig.maxTokens +
        (2 * defaultConfig.maxTokens + 3 * defaultConfig.minTokens +
          defaultConfig.overlapTokens + 3) :=
  ⟨by decide, by decide, by decide,
    chunk_token_bound defaultConfig aBlocks (by decide) (by decide)
      (by decide) aChunk (by decide)⟩

end Aigov
